import Mathlib

/-!
Distributed top-K selection by a binary tree of merges (`src/main.cpp`).

`main` is run by `world_size` processes.  Rank 0 holds `num_data` items, every rank
receives a contiguous shard of `num_data / world_size` of them, scores it, keeps the
`global_top_k_count` items with the smallest keys, and the ranks then merge their working
sets pairwise along a binary tree until rank 0 holds the result.

Conventions of the embedding:

* an item is a value of an arbitrary type `α`; `key : α → κ` into a linear order stands
  for `operator<` of `chem::molecule` (declared in `data.hpp`), `score : α → α` for
  `chem::score`;
* `std::sort` and `std::partial_sort` are library functions; they are modelled by an
  insertion sort and by repeated extraction of the minimum;
* `float` is IEEE-754 binary32 with round-to-nearest, ties-to-even, evaluated in single
  precision; the values that occur are non-negative dyadic rationals and are carried as
  natural numerators;
* `int` is 32 bits wide and its arithmetic wraps around, as in the compiled program; an
  `int` variable is carried as its two's complement pattern, a natural number below
  `2 ^ 32`, and read through `int_value`; a remainder with divisor 0 kills the process;
* the processes advance in lock step, one loop iteration per tick; a blocking
  `MPI_Send`/`MPI_Recv` pair completes in the tick in which both sides have reached it;
* the transport is reliable: `MPI_Bcast` and `MPI_Scatter` deliver the item count and the
  shards; `MPI_Scatter` takes its count as an `int` and fails on a negative one
  (`scatter_count`, `program_output`); `world_rank` and `world_size` are values of `int`.
-/

namespace TopK

/-! ## Single-precision computation of the target size -/

/-- Round `n` to a multiple of `2 ^ s`, to nearest, ties to the even multiple. -/
def round_at (s n : Nat) : Nat :=
  let q := n / 2 ^ s
  let r := n % 2 ^ s
  let half := 2 ^ s / 2
  if r < half then q * 2 ^ s
  else if half < r then (q + 1) * 2 ^ s
  else if q % 2 = 0 then q * 2 ^ s
  else (q + 1) * 2 ^ s

/-- Number of low-order bits of `n` that do not fit a 24-bit significand: the number of
halvings that bring `n` below `2 ^ 24`. -/
def dropped_bits : Nat → Nat → Nat
  | 0, _ => 0
  | fuel + 1, n => if n < 2 ^ 24 then 0 else dropped_bits fuel (n / 2) + 1

/-- Rounding of a natural number to binary32 precision (`static_cast<float>` of an
integer; also the rounding of an exact product, up to a power-of-two scale). -/
def round_to_float (n : Nat) : Nat :=
  if n < 2 ^ 24 then n else round_at (dropped_bits n n) n

/-- The literal `0.01f` is the binary32 number `10737418 / 2 ^ 30`. -/
def float_0_01_numerator : Nat := 10737418

/-- Lines 83-84:
`max(static_cast<size_t>(static_cast<float>(num_data) * 0.01f), size_t{1})`. -/
def global_top_k_count (num_data : Nat) : Nat :=
  max (round_to_float (round_to_float num_data * float_0_01_numerator) / 2 ^ 30) 1

/-! ## Library sorts and the sort-and-prune step -/

section Items

variable {α κ : Type} [LinearOrder κ]

/-- Insert `x` in front of the first item whose key is larger. -/
def sort_insert (key : α → κ) (x : α) : List α → List α
  | [] => [x]
  | y :: ys => if key x < key y then x :: y :: ys else y :: sort_insert key x ys

/-- Model of `std::sort(first, last)` with `operator<`. -/
def std_sort (key : α → κ) : List α → List α
  | [] => []
  | x :: xs => sort_insert key x (std_sort key xs)

/-- Take an item of smallest key out of a list; `none` on the empty list. -/
def extract_min (key : α → κ) : List α → Option (α × List α)
  | [] => none
  | x :: xs =>
    match extract_min key xs with
    | none => some (x, [])
    | some (m, rest) => if key m < key x then some (m, x :: rest) else some (x, xs)

/-- Model of `std::partial_sort(first, first + k, last)`: afterwards the first `k`
positions hold the `k` smallest items in ascending order, the other items follow. -/
def std_partial_sort (key : α → κ) : Nat → List α → List α
  | 0, l => l
  | k + 1, l =>
    match extract_min key l with
    | none => []
    | some (m, rest) => m :: std_partial_sort key k rest

/-- Lines 87-94 and 120-127: `partial_sort` and `resize` when the vector is longer than
`global_top_k_count`, a full `sort` otherwise. -/
def sort_and_prune (key : α → κ) (global_top_k_count : Nat) (local_data : List α) : List α :=
  if local_data.length > global_top_k_count then
    (std_partial_sort key global_top_k_count local_data).take global_top_k_count
  else
    std_sort key local_data

/-- The reference behaviour the specification names for the local reduction: sort the
whole shard, then truncate to `min(len, K)`. -/
def sort_then_truncate (key : α → κ) (K : Nat) (shard : List α) : List α :=
  (std_sort key shard).take (min shard.length K)

/-- Ascending by key. -/
def ascending (key : α → κ) (l : List α) : Prop :=
  (l.map key).Sorted (· ≤ ·)

/-- The `k` smallest keys of `l`, in ascending order (with multiplicity). -/
def smallest_keys (key : α → κ) (k : Nat) (l : List α) : List κ :=
  ((l.map key).insertionSort (· ≤ ·)).take k

/-! ## Processes and the tree reduction loop -/

/-- Largest value of `int`. -/
def INT_MAX : Nat := 2 ^ 31 - 1

/-- The value of the `int` whose 32-bit two's complement pattern is `x % 2 ^ 32`: the
result of an `int` computation whose exact result is `x`, and of the conversion of the
`size_t` value `x` to `int`. -/
def int_value (x : Nat) : Int :=
  if x % 2 ^ 32 < 2 ^ 31 then ((x % 2 ^ 32 : Nat) : Int)
  else ((x % 2 ^ 32 : Nat) : Int) - 2 ^ 32

/-- Where a process is with respect to the loop of lines 98-136. -/
inductive Status where
  /-- At the head of the loop, about to test `step < world_size`. -/
  | running
  /-- The loop condition failed; the process is past the loop. -/
  | finished
  /-- The process left the loop through `break` after its `MPI_Send`. -/
  | sent
  /-- An MPI call failed (truncated message, invalid rank). -/
  | failed
  /-- The process evaluated `world_rank % (2 * step)` with `2 * step` equal to 0 (undefined
  behaviour; the compiled program is killed by the division trap). -/
  | undefined
  deriving DecidableEq, Repr

/-- Local state of one process in the reduction phase.  `step` holds the 32-bit pattern of
the `int` variable `step` (its value is `int_value step`).  `rounds` counts the loop bodies
the process has executed; it is not a variable of the program. -/
structure Proc (α : Type) where
  local_data : List α
  step : Nat
  status : Status
  rounds : Nat

/-- Line 63: `local_count = num_data / world_size`. -/
def local_count (num_data world_size : Nat) : Nat := num_data / world_size

/-- Lines 66-68: the count argument `MPI_Scatter` receives, the `size_t` value
`local_count` converted to `int`. -/
def scatter_count (num_data world_size : Nat) : Int :=
  int_value (local_count num_data world_size)

/-- Lines 64-68: the shard `MPI_Scatter` delivers to `world_rank`, when the call accepts
its count (`scatter_count` is not negative; `program_output` makes the test). -/
def scatter (data : List α) (world_size world_rank : Nat) : List α :=
  (data.drop (world_rank * local_count data.length world_size)).take
    (local_count data.length world_size)

/-- The call `MPI_Recv(buffer, capacity, ...)` on a matching message: the message
overwrites the front of the buffer and its length is the received count; a message longer
than the capacity is an error. -/
def mpi_recv (capacity : Nat) (buffer message : List α) : Option (List α × Nat) :=
  if message.length ≤ capacity then
    some (message ++ buffer.drop message.length, message.length)
  else
    none

/-- The rank `MPI_Send` of lines 131-133 addresses, when the process is about to execute
it in its current iteration: the loop condition of line 98 holds, the remainder of line 99
is defined (`2 * step` is not 0) and is not 0; the rank is `world_rank - step`. -/
def send_target (world_size world_rank : Nat) (p : Proc α) : Option Int :=
  if p.status = Status.running ∧ int_value p.step < (world_size : Int) ∧
      int_value (2 * p.step) ≠ 0 ∧
      Int.tmod (world_rank : Int) (int_value (2 * p.step)) ≠ 0 then
    some (int_value (world_rank + (2 ^ 32 - p.step % 2 ^ 32)))
  else
    none

/-- The rank `MPI_Recv` of lines 108-109 waits for, when the process is about to execute
it in its current iteration: the loop condition of line 98 holds, the remainder of line 99
is defined (`2 * step` is not 0) and is 0, and `source_rank = world_rank + step` is below
`world_size` (line 102).  A negative `source_rank` is no rank; it does not occur in a run
(`receiver_sum_lt`). -/
def recv_source (world_size world_rank : Nat) (p : Proc α) : Option Nat :=
  if p.status = Status.running ∧ int_value p.step < (world_size : Int) ∧
      int_value (2 * p.step) ≠ 0 ∧
      Int.tmod (world_rank : Int) (int_value (2 * p.step)) = 0 ∧
      int_value (world_rank + p.step) < (world_size : Int) ∧
      0 ≤ int_value (world_rank + p.step) then
    some (int_value (world_rank + p.step)).toNat
  else
    none

/-- Lines 104-127 once the message of `source_rank` has arrived: receive into a buffer of
`global_top_k_count` value-initialised slots, shrink the buffer to the received count,
append it to `local_data`, sort and prune. -/
def merge_incoming [Inhabited α] (key : α → κ) (global_top_k_count : Nat)
    (local_data message : List α) : Option (List α) :=
  match mpi_recv global_top_k_count (List.replicate global_top_k_count default) message with
  | some (incoming_data, received_count) =>
    some (sort_and_prune key global_top_k_count
      (local_data ++ incoming_data.take received_count))
  | none => none

/-- One iteration of the loop of lines 98-136 on rank `world_rank`, the other ranks being
in the states `w`.  The `int` expressions `2 * step`, `world_rank + step`,
`world_rank - step` and `step *= 2` wrap around; `%` is the remainder of the truncating
division, and a zero divisor kills the process.  A process whose partner has not reached
the matching call waits. -/
def loop_iteration [Inhabited α] (key : α → κ) (global_top_k_count world_size : Nat)
    (w : Nat → Proc α) (world_rank : Nat) : Proc α :=
  let p := w world_rank
  match p.status with
  | Status.running =>
    if int_value p.step < (world_size : Int) then
      if int_value (2 * p.step) = 0 then { p with status := Status.undefined }
      else if Int.tmod (world_rank : Int) (int_value (2 * p.step)) = 0 then
        let source_rank : Int := int_value (world_rank + p.step)
        if source_rank < (world_size : Int) then
          if 0 ≤ source_rank then
            if send_target world_size source_rank.toNat (w source_rank.toNat)
                = some (world_rank : Int) then
              match merge_incoming key global_top_k_count p.local_data
                  (w source_rank.toNat).local_data with
              | some merged =>
                { p with local_data := merged, step := (2 * p.step) % 2 ^ 32,
                         rounds := p.rounds + 1 }
              | none => { p with status := Status.failed }
            else p
          else { p with status := Status.failed }
        else { p with step := (2 * p.step) % 2 ^ 32, rounds := p.rounds + 1 }
      else
        let dest_rank : Int := int_value (world_rank + (2 ^ 32 - p.step % 2 ^ 32))
        if 0 ≤ dest_rank ∧ dest_rank < (world_size : Int) then
          if recv_source world_size dest_rank.toNat (w dest_rank.toNat) = some world_rank then
            { p with status := Status.sent, rounds := p.rounds + 1 }
          else p
        else { p with status := Status.failed }
    else { p with status := Status.finished }
  | _ => p

/-- One tick: every process executes one loop iteration. -/
def tick [Inhabited α] (key : α → κ) (global_top_k_count world_size : Nat)
    (w : Nat → Proc α) : Nat → Proc α :=
  fun world_rank => loop_iteration key global_top_k_count world_size w world_rank

/-- The states after `n` ticks. -/
def after_ticks [Inhabited α] (key : α → κ) (global_top_k_count world_size : Nat) :
    Nat → (Nat → Proc α) → Nat → Proc α
  | 0, w => w
  | n + 1, w => tick key global_top_k_count world_size
      (after_ticks key global_top_k_count world_size n w)

/-- Lines 63-94, `MPI_Scatter` having accepted its count: every rank receives its shard,
scores it and reduces it locally; the loop starts with `step = 1`. -/
def initial_world (key : α → κ) (score : α → α) (world_size : Nat) (data : List α) :
    Nat → Proc α :=
  fun world_rank =>
    { local_data :=
        sort_and_prune key (global_top_k_count data.length)
          ((scatter data world_size world_rank).map score)
      step := 1
      status := Status.running
      rounds := 0 }

/-- The states of all ranks `n` ticks after the local reduction, in a run in which the
shards were delivered. -/
def world_after [Inhabited α] (key : α → κ) (score : α → α) (world_size : Nat)
    (data : List α) (n : Nat) : Nat → Proc α :=
  after_ticks key (global_top_k_count data.length) world_size n
    (initial_world key score world_size data)

/-- Lines 143-145: what rank 0 prints, once it has left the loop, in a run in which the
shards were delivered. -/
def output [Inhabited α] (key : α → κ) (score : α → α) (world_size : Nat)
    (data : List α) (n : Nat) : Option (List α) :=
  let p := world_after key score world_size data n 0
  if p.status = Status.finished ∨ p.status = Status.sent then some p.local_data else none

/-- Lines 63-145, the run from the distribution phase on: `MPI_Scatter` rejects a negative
count and the run ends there, printing nothing; otherwise the shards are delivered and rank
0 prints what it holds once it has left the loop. -/
def program_output [Inhabited α] (key : α → κ) (score : α → α) (world_size : Nat)
    (data : List α) (n : Nat) : Option (List α) :=
  if 0 ≤ scatter_count data.length world_size then output key score world_size data n
  else none

/-- The messages sent so far: the working sets of the ranks that have left the loop
through `break` after `MPI_Send` (a rank sends its whole working set, once, and does not
change it afterwards). -/
def sent_messages (world_size : Nat) (w : Nat → Proc α) : List (List α) :=
  ((List.range world_size).filter (fun r => decide ((w r).status = Status.sent))).map
    (fun r => (w r).local_data)

/-! ## Vocabulary of the correctness statements -/

/-- The scored items of the shards of those ranks among `lo, ..., lo + cnt - 1` that
exist: what the subtree merged into rank `lo` after `log2 cnt` rounds has seen. -/
def subtree_items (score : α → α) (data : List α) (world_size lo cnt : Nat) : List α :=
  (List.range' lo (min cnt (world_size - lo))).flatMap
    (fun r => (scatter data world_size r).map score)

/-- The working set `local_data` is a top-`K` selection of `items`: it consists of items
of `items` (with multiplicity) and its keys are the `K` smallest keys, ascending. -/
def holds_top (key : α → κ) (K : Nat) (local_data items : List α) : Prop :=
  local_data.map key = smallest_keys key K items ∧ local_data.Subperm items

/-- State of all ranks at the head of round `i` (the round with `step = 2 ^ i`): the
ranks that are multiples of `2 ^ i` are in the loop and hold the top-`K` of their subtree,
every other rank has sent, in the round given by the largest power of two dividing it. -/
def tree_invariant (key : α → κ) (score : α → α) (K world_size : Nat) (data : List α)
    (i : Nat) (w : Nat → Proc α) : Prop :=
  ∀ r, r < world_size →
    (2 ^ i ∣ r →
      (w r).status = Status.running ∧ (w r).step = 2 ^ i ∧ (w r).rounds = i ∧
        holds_top key K (w r).local_data (subtree_items score data world_size r (2 ^ i))) ∧
    (¬ 2 ^ i ∣ r →
      ∃ v, v < i ∧ 2 ^ v ∣ r ∧ ¬ 2 ^ (v + 1) ∣ r ∧
        (w r).status = Status.sent ∧ (w r).step = 2 ^ v ∧ (w r).rounds = v + 1 ∧
        holds_top key K (w r).local_data (subtree_items score data world_size r (2 ^ v)))

end Items

/-! ## The library sorts meet their contracts -/

section SortLemmas

variable {α κ : Type} [LinearOrder κ]

theorem ascending_nil (key : α → κ) : ascending key [] := by
  simp [ascending]

theorem ascending_cons_iff (key : α → κ) (x : α) (l : List α) :
    ascending key (x :: l) ↔ (∀ y ∈ l, key x ≤ key y) ∧ ascending key l := by
  simp [ascending, List.sorted_cons]

theorem sort_insert_perm (key : α → κ) (x : α) (l : List α) :
    (sort_insert key x l).Perm (x :: l) := by
  induction l with
  | nil => simp [sort_insert]
  | cons y ys ih =>
    unfold sort_insert
    split
    · exact List.Perm.refl _
    · exact (List.Perm.cons y ih).trans (List.Perm.swap x y ys)

theorem sort_insert_ascending (key : α → κ) (x : α) (l : List α) (h : ascending key l) :
    ascending key (sort_insert key x l) := by
  induction l with
  | nil => simp [sort_insert, ascending]
  | cons y ys ih =>
    rw [ascending_cons_iff] at h
    unfold sort_insert
    split
    · rename_i hlt
      rw [ascending_cons_iff, ascending_cons_iff]
      refine ⟨?_, h⟩
      intro z hz
      rcases List.mem_cons.mp hz with rfl | hz
      · exact le_of_lt hlt
      · exact le_trans (le_of_lt hlt) (h.1 z hz)
    · rename_i hlt
      rw [ascending_cons_iff]
      refine ⟨?_, ih h.2⟩
      intro z hz
      rcases List.mem_cons.mp ((sort_insert_perm key x ys).subset hz) with rfl | hz
      · exact not_lt.mp hlt
      · exact h.1 z hz

theorem std_sort_perm (key : α → κ) (l : List α) : (std_sort key l).Perm l := by
  induction l with
  | nil => exact List.Perm.refl _
  | cons x xs ih =>
    exact (sort_insert_perm key x (std_sort key xs)).trans (List.Perm.cons x ih)

theorem std_sort_ascending (key : α → κ) (l : List α) : ascending key (std_sort key l) := by
  induction l with
  | nil => exact ascending_nil key
  | cons x xs ih => exact sort_insert_ascending key x _ ih

theorem extract_min_none (key : α → κ) (l : List α) (h : extract_min key l = none) :
    l = [] := by
  cases l with
  | nil => rfl
  | cons x xs =>
    unfold extract_min at h
    split at h
    · simp at h
    · split at h <;> simp at h

theorem extract_min_some (key : α → κ) (l : List α) (m : α) (rest : List α)
    (h : extract_min key l = some (m, rest)) :
    l.Perm (m :: rest) ∧ ∀ y ∈ rest, key m ≤ key y := by
  induction l generalizing m rest with
  | nil => simp [extract_min] at h
  | cons x xs ih =>
    unfold extract_min at h
    split at h
    · rename_i hnone
      have hxs := extract_min_none key xs hnone
      simp only [Option.some.injEq, Prod.mk.injEq] at h
      obtain ⟨rfl, rfl⟩ := h
      subst hxs
      simp
    · rename_i m' rest' hsome
      obtain ⟨hp, hle⟩ := ih m' rest' hsome
      split at h
      · rename_i hlt
        simp only [Option.some.injEq, Prod.mk.injEq] at h
        obtain ⟨rfl, rfl⟩ := h
        refine ⟨(List.Perm.cons x hp).trans (List.Perm.swap _ _ _), ?_⟩
        intro y hy
        rcases List.mem_cons.mp hy with rfl | hy
        · exact le_of_lt hlt
        · exact hle y hy
      · rename_i hlt
        simp only [Option.some.injEq, Prod.mk.injEq] at h
        obtain ⟨rfl, rfl⟩ := h
        refine ⟨List.Perm.refl _, ?_⟩
        intro y hy
        rcases List.mem_cons.mp (hp.subset hy) with rfl | hy
        · exact not_lt.mp hlt
        · exact le_trans (not_lt.mp hlt) (hle y hy)

theorem std_partial_sort_spec (key : α → κ) (k : Nat) (l : List α) :
    (std_partial_sort key k l).Perm l ∧
    ascending key ((std_partial_sort key k l).take k) ∧
    ∀ a ∈ (std_partial_sort key k l).take k, ∀ b ∈ (std_partial_sort key k l).drop k,
      key a ≤ key b := by
  induction k generalizing l with
  | zero => simp [std_partial_sort, ascending_nil]
  | succ k ih =>
    unfold std_partial_sort
    split
    · rename_i hnone
      have := extract_min_none key l hnone
      subst this
      simp [ascending_nil]
    · rename_i m rest hsome
      obtain ⟨hp, hle⟩ := extract_min_some key l m rest hsome
      obtain ⟨ihp, ihs, ihc⟩ := ih rest
      refine ⟨(List.Perm.cons m ihp).trans hp.symm, ?_, ?_⟩
      · rw [List.take_succ_cons, ascending_cons_iff]
        exact ⟨fun y hy => hle y (ihp.subset (List.mem_of_mem_take hy)), ihs⟩
      · intro a ha b hb
        rw [List.take_succ_cons] at ha
        rw [List.drop_succ_cons] at hb
        rcases List.mem_cons.mp ha with rfl | ha
        · exact hle b (ihp.subset (List.mem_of_mem_drop hb))
        · exact ihc a ha b hb

end SortLemmas

/-! ## Sorted key sequences -/

section KeyLemmas

variable {κ : Type} [LinearOrder κ]

/-- Sorting is invariant under permutation of the input. -/
theorem insertionSort_congr {l₁ l₂ : List κ} (h : l₁.Perm l₂) :
    l₁.insertionSort (· ≤ ·) = l₂.insertionSort (· ≤ ·) := by
  apply List.eq_of_perm_of_sorted (r := (· ≤ ·))
  · exact (List.perm_insertionSort _ l₁).trans (h.trans (List.perm_insertionSort _ l₂).symm)
  · exact List.sorted_insertionSort _ _
  · exact List.sorted_insertionSort _ _

/-- A sorted front part that is below the rest is the front of the sorted list. -/
theorem insertionSort_of_split {l a b : List κ} (hp : l.Perm (a ++ b))
    (ha : a.Sorted (· ≤ ·)) (hab : ∀ x ∈ a, ∀ y ∈ b, x ≤ y) :
    l.insertionSort (· ≤ ·) = a ++ b.insertionSort (· ≤ ·) := by
  apply List.eq_of_perm_of_sorted (r := (· ≤ ·))
  · exact (List.perm_insertionSort _ l).trans
      (hp.trans (List.Perm.append_left a (List.perm_insertionSort _ b).symm))
  · exact List.sorted_insertionSort _ _
  · rw [List.Sorted, List.pairwise_append]
    refine ⟨ha, List.sorted_insertionSort _ _, ?_⟩
    intro x hx y hy
    exact hab x hx y ((List.perm_insertionSort _ b).subset hy)

theorem take_insertionSort_of_split {l a b : List κ} (k : Nat) (hp : l.Perm (a ++ b))
    (ha : a.Sorted (· ≤ ·)) (hab : ∀ x ∈ a, ∀ y ∈ b, x ≤ y)
    (hk : a.length ≤ k) (hb : a.length < k → b = []) :
    (l.insertionSort (· ≤ ·)).take k = a := by
  rw [insertionSort_of_split hp ha hab]
  rcases Nat.lt_or_ge a.length k with h | h
  · rw [hb h]
    simp [List.take_of_length_le hk]
  · have : a.length = k := le_antisymm hk h
    rw [← this, List.take_left']
    rfl

/-- In a sorted list, fewer than `k` entries are strictly below an entry among the first
`k`. -/
theorem countP_lt_of_mem_take {S : List κ} (hS : S.Sorted (· ≤ ·)) {k : Nat} {t : κ}
    (ht : t ∈ S.take k) : S.countP (fun u => decide (u < t)) < k := by
  have hsplit : S.countP (fun u => decide (u < t)) =
      (S.take k).countP (fun u => decide (u < t)) +
        (S.drop k).countP (fun u => decide (u < t)) := by
    conv_lhs => rw [← List.take_append_drop k S]
    rw [List.countP_append]
  have hdrop : (S.drop k).countP (fun u => decide (u < t)) = 0 := by
    rw [List.countP_eq_zero]
    intro u hu
    have := hS.rel_of_mem_take_of_mem_drop ht hu
    simpa using this
  have htake : (S.take k).countP (fun u => decide (u < t)) < (S.take k).length := by
    have h1 := List.length_eq_countP_add_countP (fun u => decide (u < t)) (S.take k)
    have h2 : 0 < (S.take k).countP (fun u => ¬ decide (u < t) = true) := by
      rw [List.countP_pos_iff]
      exact ⟨t, ht, by simp⟩
    omega
  have hlen : (S.take k).length ≤ k := by simp
  omega

/-- Pruning both operands to their `k` smallest entries before merging does not change the
`k` smallest entries of the union. -/
theorem take_insertionSort_merge (k : Nat) (X Y : List κ) :
    (((X.insertionSort (· ≤ ·)).take k ++ (Y.insertionSort (· ≤ ·)).take k).insertionSort
      (· ≤ ·)).take k = ((X ++ Y).insertionSort (· ≤ ·)).take k := by
  set sX := X.insertionSort (· ≤ ·) with hsX
  set sY := Y.insertionSort (· ≤ ·) with hsY
  set S := (sX.take k ++ sY.take k).insertionSort (· ≤ ·) with hS
  have hsXs : sX.Sorted (· ≤ ·) := List.sorted_insertionSort _ _
  have hsYs : sY.Sorted (· ≤ ·) := List.sorted_insertionSort _ _
  have hSs : S.Sorted (· ≤ ·) := List.sorted_insertionSort _ _
  have hSp : S.Perm (sX.take k ++ sY.take k) := List.perm_insertionSort _ _
  -- an entry among the first k of S is below everything pruned from X or from Y
  have below : ∀ (Z : List κ), Z.Sorted (· ≤ ·) →
      (∀ t, (Z.take k).countP (fun u => decide (u < t))
        ≤ S.countP (fun u => decide (u < t))) →
      ∀ t ∈ S.take k, ∀ x ∈ Z.drop k, t ≤ x := by
    intro Z hZ hcount t ht x hx
    by_contra hlt
    rw [not_le] at hlt
    have hxlen : k ≤ Z.length := by
      by_contra hc
      rw [List.drop_of_length_le (by omega)] at hx
      simp at hx
    have h1 : (Z.take k).countP (fun u => decide (u < t)) = (Z.take k).length := by
      rw [List.countP_eq_length]
      intro u hu
      have := hZ.rel_of_mem_take_of_mem_drop hu hx
      simpa using lt_of_le_of_lt this hlt
    have h2 : (Z.take k).length = k := by simp [hxlen]
    have h3 := countP_lt_of_mem_take hSs ht
    have h4 := hcount t
    omega
  have hcX : ∀ t, (sX.take k).countP (fun u => decide (u < t))
      ≤ S.countP (fun u => decide (u < t)) := by
    intro t
    rw [hSp.countP_eq, List.countP_append]
    omega
  have hcY : ∀ t, (sY.take k).countP (fun u => decide (u < t))
      ≤ S.countP (fun u => decide (u < t)) := by
    intro t
    rw [hSp.countP_eq, List.countP_append]
    omega
  apply Eq.symm
  apply take_insertionSort_of_split (a := S.take k) (b := S.drop k ++ (sX.drop k ++ sY.drop k)) k
  · -- permutation
    have h1 : (X ++ Y).Perm (sX ++ sY) :=
      List.Perm.append (List.perm_insertionSort _ X).symm (List.perm_insertionSort _ Y).symm
    have h2 : (sX ++ sY).Perm ((sX.take k ++ sY.take k) ++ (sX.drop k ++ sY.drop k)) := by
      conv_lhs => rw [← List.take_append_drop k sX, ← List.take_append_drop k sY]
      simp only [List.append_assoc]
      apply List.Perm.append_left
      rw [← List.append_assoc, ← List.append_assoc]
      exact List.Perm.append_right _ List.perm_append_comm
    have h3 : ((sX.take k ++ sY.take k) ++ (sX.drop k ++ sY.drop k)).Perm
        (S ++ (sX.drop k ++ sY.drop k)) := List.Perm.append_right _ hSp.symm
    have h4 : S ++ (sX.drop k ++ sY.drop k)
        = S.take k ++ (S.drop k ++ (sX.drop k ++ sY.drop k)) := by
      conv_lhs => rw [← List.take_append_drop k S]
      simp only [List.append_assoc]
    rw [← h4]
    exact h1.trans (h2.trans h3)
  · exact hSs.sublist (List.take_sublist _ _)
  · intro t ht x hx
    rcases List.mem_append.mp hx with hx | hx
    · exact hSs.rel_of_mem_take_of_mem_drop ht hx
    · rcases List.mem_append.mp hx with hx | hx
      · exact below sX hsXs hcX t ht x hx
      · exact below sY hsYs hcY t ht x hx
  · simp
  · intro hlt
    have hSlen : S.length < k := by
      simp only [List.length_take] at hlt
      omega
    have hl : S.length = (sX.take k).length + (sY.take k).length := by
      rw [hSp.length_eq, List.length_append]
    simp only [List.length_take] at hl
    have hX : sX.length ≤ k := by omega
    have hY : sY.length ≤ k := by omega
    rw [List.drop_of_length_le (by omega : S.length ≤ k), List.drop_of_length_le hX,
      List.drop_of_length_le hY]
    rfl

end KeyLemmas

/-! ## Sort-and-prune selects the smallest keys -/

section ItemLemmas

variable {α κ : Type} [LinearOrder κ]

theorem keys_of_perm_of_ascending (key : α → κ) {l s : List α} (hp : s.Perm l)
    (hs : ascending key s) : s.map key = (l.map key).insertionSort (· ≤ ·) := by
  apply List.eq_of_perm_of_sorted (r := (· ≤ ·))
  · exact (hp.map key).trans (List.perm_insertionSort _ _).symm
  · exact hs
  · exact List.sorted_insertionSort _ _

theorem keys_std_sort (key : α → κ) (l : List α) :
    (std_sort key l).map key = (l.map key).insertionSort (· ≤ ·) :=
  keys_of_perm_of_ascending key (std_sort_perm key l) (std_sort_ascending key l)

theorem length_std_sort (key : α → κ) (l : List α) : (std_sort key l).length = l.length :=
  (std_sort_perm key l).length_eq

theorem length_sort_and_prune (key : α → κ) (K : Nat) (l : List α) :
    (sort_and_prune key K l).length = min l.length K := by
  unfold sort_and_prune
  split
  · rename_i h
    rw [List.length_take, (std_partial_sort_spec key K l).1.length_eq]
    omega
  · rename_i h
    rw [length_std_sort]
    omega

theorem ascending_sort_and_prune (key : α → κ) (K : Nat) (l : List α) :
    ascending key (sort_and_prune key K l) := by
  unfold sort_and_prune
  split
  · exact (std_partial_sort_spec key K l).2.1
  · exact std_sort_ascending key l

/-- The items kept by `sort_and_prune` are items of the input, and every item that is
dropped has a key at least as large as every item kept. -/
theorem sort_and_prune_split (key : α → κ) (K : Nat) (l : List α) :
    ∃ rest, (sort_and_prune key K l ++ rest).Perm l ∧
      (∀ a ∈ sort_and_prune key K l, ∀ b ∈ rest, key a ≤ key b) ∧
      (l.length ≤ K → rest = []) := by
  unfold sort_and_prune
  split
  · rename_i h
    refine ⟨(std_partial_sort key K l).drop K, ?_, (std_partial_sort_spec key K l).2.2, ?_⟩
    · rw [List.take_append_drop]
      exact (std_partial_sort_spec key K l).1
    · intro h'
      omega
  · exact ⟨[], by simpa using std_sort_perm key l, by simp, fun _ => rfl⟩

theorem keys_sort_and_prune (key : α → κ) (K : Nat) (l : List α) :
    (sort_and_prune key K l).map key = smallest_keys key K l := by
  obtain ⟨rest, hp, hle, hrest⟩ := sort_and_prune_split key K l
  unfold smallest_keys
  symm
  apply take_insertionSort_of_split (b := rest.map key) K
  · rw [← List.map_append]
    exact (hp.map key).symm
  · exact ascending_sort_and_prune key K l
  · intro x hx y hy
    obtain ⟨a, ha, rfl⟩ := List.mem_map.mp hx
    obtain ⟨b, hb, rfl⟩ := List.mem_map.mp hy
    exact hle a ha b hb
  · rw [List.length_map, length_sort_and_prune]
    omega
  · intro h
    rw [List.length_map, length_sort_and_prune] at h
    rw [hrest (by omega)]
    rfl

theorem smallest_keys_congr (key : α → κ) (K : Nat) {l₁ l₂ : List α}
    (h : (l₁.map key).Perm (l₂.map key)) :
    smallest_keys key K l₁ = smallest_keys key K l₂ := by
  unfold smallest_keys
  rw [insertionSort_congr h]

/-- Merging two pruned working sets yields the pruned union. -/
theorem keys_sort_and_prune_append (key : α → κ) (K : Nat) (a b A B : List α)
    (ha : a.map key = smallest_keys key K A) (hb : b.map key = smallest_keys key K B) :
    (sort_and_prune key K (a ++ b)).map key = smallest_keys key K (A ++ B) := by
  rw [keys_sort_and_prune]
  unfold smallest_keys at *
  rw [List.map_append, ha, hb, List.map_append]
  exact take_insertionSort_merge K (A.map key) (B.map key)

theorem length_smallest_keys (key : α → κ) (K : Nat) (l : List α) :
    (smallest_keys key K l).length = min l.length K := by
  unfold smallest_keys
  rw [List.length_take, List.length_insertionSort, List.length_map]
  omega

theorem sorted_smallest_keys (key : α → κ) (K : Nat) (l : List α) :
    (smallest_keys key K l).Sorted (· ≤ ·) :=
  (List.sorted_insertionSort _ _).sublist (List.take_sublist _ _)

theorem mpi_recv_take (K : Nat) (buffer message : List α) (h : message.length ≤ K) :
    ∃ incoming_data, mpi_recv K buffer message = some (incoming_data, message.length) ∧
      incoming_data.take message.length = message := by
  refine ⟨message ++ buffer.drop message.length, ?_, ?_⟩
  · simp [mpi_recv, h]
  · simp

theorem merge_incoming_eq [Inhabited α] (key : α → κ) (K : Nat) (local_data message : List α)
    (h : message.length ≤ K) :
    merge_incoming key K local_data message
      = some (sort_and_prune key K (local_data ++ message)) := by
  obtain ⟨inc, h1, h2⟩ := mpi_recv_take K (List.replicate K default) message h
  unfold merge_incoming
  rw [h1]
  simp only [h2]

end ItemLemmas

/-! ## The single-precision target size -/

section FloatLemmas

theorem dropped_bits_eq (s : Nat) : ∀ (fuel n : Nat), 2 ^ (23 + s) ≤ n → n < 2 ^ (24 + s) →
    s ≤ fuel → dropped_bits fuel n = s := by
  induction s with
  | zero =>
    intro fuel n _ h2 _
    cases fuel with
    | zero => rfl
    | succ f =>
      show (if n < 2 ^ 24 then 0 else dropped_bits f (n / 2) + 1) = 0
      rw [if_pos (by simpa using h2)]
  | succ s ih =>
    intro fuel n h1 h2 hf
    cases fuel with
    | zero => omega
    | succ f =>
      have hge : ¬ n < 2 ^ 24 := by
        have : 2 ^ 24 ≤ 2 ^ (23 + (s + 1)) := Nat.pow_le_pow_right (by norm_num) (by omega)
        omega
      have e1 : 2 ^ (23 + (s + 1)) = 2 * 2 ^ (23 + s) := by
        rw [show 23 + (s + 1) = (23 + s) + 1 by omega, pow_succ]; ring
      have e2 : 2 ^ (24 + (s + 1)) = 2 * 2 ^ (24 + s) := by
        rw [show 24 + (s + 1) = (24 + s) + 1 by omega, pow_succ]; ring
      have := ih f (n / 2) (by omega) (by omega) (by omega)
      show (if n < 2 ^ 24 then 0 else dropped_bits f (n / 2) + 1) = s + 1
      rw [if_neg hge, this]

theorem round_to_float_small (n : Nat) (h : n < 2 ^ 24) : round_to_float n = n := by
  unfold round_to_float
  rw [if_pos h]

theorem round_to_float_at (s n : Nat) (h1 : 2 ^ (23 + s) ≤ n) (h2 : n < 2 ^ (24 + s))
    (hs : 1 ≤ s) : round_to_float n = round_at s n := by
  have hge : ¬ n < 2 ^ 24 := by
    have : 2 ^ 24 ≤ 2 ^ (23 + s) := Nat.pow_le_pow_right (by norm_num) (by omega)
    omega
  have hsn : s ≤ n := by
    have : s < 2 ^ s := Nat.lt_two_pow s
    have : 2 ^ s ≤ 2 ^ (23 + s) := Nat.pow_le_pow_right (by norm_num) (by omega)
    omega
  unfold round_to_float
  rw [if_neg hge, dropped_bits_eq s n n h1 h2 hsn]

theorem exists_binade (n : Nat) (h1 : 2 ^ 24 ≤ n) (h2 : n < 2 ^ 48) :
    ∃ s, 1 ≤ s ∧ s ≤ 24 ∧ 2 ^ (23 + s) ≤ n ∧ n < 2 ^ (24 + s) := by
  have hn : n ≠ 0 := by
    have : 0 < 2 ^ 24 := by norm_num
    omega
  have hlo : 24 ≤ n.log2 := (Nat.le_log2 hn).2 h1
  have hhi : n.log2 < 48 := (Nat.log2_lt hn).2 h2
  refine ⟨n.log2 - 23, by omega, by omega, ?_, ?_⟩
  · rw [show 23 + (n.log2 - 23) = n.log2 by omega]
    exact Nat.log2_self_le hn
  · rw [show 24 + (n.log2 - 23) = n.log2 + 1 by omega]
    exact Nat.lt_log2_self

theorem round_at_cases (s n : Nat) :
    (round_at s n = n / 2 ^ s * 2 ^ s ∧ n % 2 ^ s ≤ 2 ^ s / 2) ∨
    (round_at s n = (n / 2 ^ s + 1) * 2 ^ s ∧ 2 ^ s / 2 ≤ n % 2 ^ s) := by
  unfold round_at
  simp only
  split_ifs with h1 h2 h3
  · exact Or.inl ⟨rfl, le_of_lt h1⟩
  · exact Or.inr ⟨rfl, le_of_lt h2⟩
  · exact Or.inl ⟨rfl, not_lt.mp h2⟩
  · exact Or.inr ⟨rfl, not_lt.mp h1⟩

theorem product_rounding (F : Nat) (hF : F ≤ 16777298) :
    round_to_float (F * float_0_01_numerator) / 2 ^ 30 = F / 100 := by
  unfold float_0_01_numerator
  rcases Nat.lt_or_ge (F * 10737418) (2 ^ 24) with h | h
  · rw [round_to_float_small _ h]
    norm_num at h ⊢
    omega
  · have h48 : F * 10737418 < 2 ^ 48 := by norm_num; omega
    obtain ⟨s, hs1, hs2, hlo, hhi⟩ := exists_binade _ h h48
    rw [round_to_float_at s _ hlo hhi hs1]
    clear h h48
    have hdm := Nat.div_add_mod (F * 10737418) (2 ^ s)
    have hr := Nat.mod_lt (F * 10737418) (show 0 < 2 ^ s by positivity)
    have hFm := Nat.div_add_mod F 100
    have hj := Nat.mod_lt F (show 0 < 100 by norm_num)
    apply Nat.div_eq_of_lt_le
    · rcases round_at_cases s (F * 10737418) with ⟨e, hc⟩ | ⟨e, hc⟩ <;> rw [e] <;>
        generalize F * 10737418 / 2 ^ s = q at * <;>
        generalize F * 10737418 % 2 ^ s = r at * <;>
        generalize F / 100 = m at * <;>
        generalize F % 100 = j at * <;>
        interval_cases s <;> norm_num at hlo hhi hdm hr hc ⊢ <;> omega
    · rcases round_at_cases s (F * 10737418) with ⟨e, hc⟩ | ⟨e, hc⟩ <;> rw [e] <;>
        generalize F * 10737418 / 2 ^ s = q at * <;>
        generalize F * 10737418 % 2 ^ s = r at * <;>
        generalize F / 100 = m at * <;>
        generalize F % 100 = j at * <;>
        interval_cases s <;> norm_num at hlo hhi hdm hr hc ⊢ <;> omega

/-- The conversion of `num_data` to `float` keeps the hundreds up to 16777298. -/
theorem conversion_rounding (N : Nat) (hN : N ≤ 16777298) :
    round_to_float N ≤ 16777298 ∧ round_to_float N / 100 = N / 100 := by
  rcases Nat.lt_or_ge N (2 ^ 24) with h | h
  · rw [round_to_float_small _ h]
    exact ⟨hN, rfl⟩
  · have h2 : N < 2 ^ (24 + 1) := by norm_num; omega
    rw [round_to_float_at 1 N (by simpa using h) h2 (le_refl 1)]
    rcases round_at_cases 1 N with ⟨e, hc⟩ | ⟨e, hc⟩ <;> rw [e] <;> norm_num at h hc ⊢ <;>
      omega

theorem global_top_k_count_exact (N : Nat) (hN : N ≤ 16777298) :
    global_top_k_count N = max 1 (N / 100) := by
  obtain ⟨h1, h2⟩ := conversion_rounding N hN
  unfold global_top_k_count
  rw [product_rounding _ h1, h2, Nat.max_comm]

theorem global_top_k_count_pos (N : Nat) : 1 ≤ global_top_k_count N := by
  unfold global_top_k_count
  exact Nat.le_max_right _ _

end FloatLemmas

/-! ## Ranks and subtrees -/

section TreeLemmas

variable {α κ : Type} [LinearOrder κ]

/-! ### Rank arithmetic -/

theorem dvd_of_double_dvd {S r : Nat} (h : 2 * S ∣ r) : S ∣ r :=
  dvd_trans (dvd_mul_left S 2) h

theorem partner_not_double_dvd {S r : Nat} (hS : 0 < S) (h : 2 * S ∣ r) : ¬ 2 * S ∣ r + S := by
  intro h'
  have h2 : 2 * S ∣ S := (Nat.dvd_add_right h).mp h'
  have := Nat.le_of_dvd hS h2
  omega

theorem partner_dvd {S r : Nat} (h : 2 * S ∣ r) : S ∣ r + S :=
  (Nat.dvd_add_right (dvd_of_double_dvd h)).mpr (dvd_refl S)

theorem sender_ge {S r : Nat} (h1 : S ∣ r) (h2 : ¬ 2 * S ∣ r) : S ≤ r := by
  rcases Nat.eq_zero_or_pos r with h0 | h0
  · subst h0
    exact absurd (dvd_zero _) h2
  · exact Nat.le_of_dvd h0 h1

theorem parent_double_dvd {S r : Nat} (h1 : S ∣ r) (h2 : ¬ 2 * S ∣ r) :
    2 * S ∣ r - S := by
  obtain ⟨t, rfl⟩ := h1
  rcases Nat.even_or_odd t with ⟨u, hu⟩ | ⟨u, hu⟩
  · exfalso
    apply h2
    subst hu
    exact ⟨u, by ring⟩
  · subst hu
    refine ⟨u, ?_⟩
    have : S * (2 * u + 1) = 2 * S * u + S := by ring
    rw [this]
    omega

theorem mod_double_eq_zero_iff (S r : Nat) : r % (2 * S) = 0 ↔ 2 * S ∣ r :=
  Nat.dvd_iff_mod_eq_zero.symm

/-! ### The shards of a subtree -/

theorem chunks_flatMap (score : α → α) (data : List α) (c n : Nat) :
    (List.range' 0 n).flatMap (fun r => ((data.drop (r * c)).take c).map score)
      = (data.take (n * c)).map score := by
  induction n with
  | zero => simp
  | succ n ih =>
    rw [List.range'_concat, List.flatMap_append, ih]
    simp only [List.flatMap_cons, List.flatMap_nil, List.append_nil, Nat.zero_add, Nat.one_mul]
    rw [← List.map_append, Nat.succ_mul, List.take_add]

theorem subtree_items_one (score : α → α) (data : List α) (P r : Nat) (h : r < P) :
    subtree_items score data P r 1 = (scatter data P r).map score := by
  unfold subtree_items
  have : min 1 (P - r) = 1 := by omega
  rw [this]
  simp

theorem subtree_items_double (score : α → α) (data : List α) (P r S : Nat)
    (h : r + S < P) :
    subtree_items score data P r (2 * S)
      = subtree_items score data P r S ++ subtree_items score data P (r + S) S := by
  unfold subtree_items
  have e1 : min (2 * S) (P - r) = min S (P - r) + min S (P - (r + S)) := by omega
  have e2 : min S (P - r) = S := by omega
  rw [e1, e2, ← List.flatMap_append]
  congr 1
  have := List.range'_append r S (min S (P - (r + S))) 1
  simp only [Nat.one_mul] at this
  rw [this, Nat.add_comm]

theorem subtree_items_double_idle (score : α → α) (data : List α) (P r S : Nat)
    (h : P ≤ r + S) :
    subtree_items score data P r (2 * S) = subtree_items score data P r S := by
  unfold subtree_items
  have e1 : min (2 * S) (P - r) = min S (P - r) := by omega
  rw [e1]

theorem subtree_items_root (score : α → α) (data : List α) (P cnt : Nat) (h : P ≤ cnt) :
    subtree_items score data P 0 cnt
      = (data.take (P * (data.length / P))).map score := by
  unfold subtree_items
  have e1 : min cnt (P - 0) = P := by omega
  rw [e1]
  exact chunks_flatMap score data (data.length / P) P

theorem subtree_items_root_of_dvd (score : α → α) (data : List α) (P cnt : Nat) (h : P ≤ cnt)
    (hdiv : data.length % P = 0) :
    subtree_items score data P 0 cnt = data.map score := by
  rw [subtree_items_root score data P cnt h]
  have : P * (data.length / P) = data.length := Nat.mul_div_cancel' (Nat.dvd_of_mod_eq_zero hdiv)
  rw [this, List.take_length]

end TreeLemmas

section IntLemmas

/-! ### Values of `int` expressions -/

theorem int_value_of_lt {x : Nat} (h : x < 2 ^ 31) : int_value x = (x : Int) := by
  unfold int_value
  have h1 : x % 2 ^ 32 = x := Nat.mod_eq_of_lt (by omega)
  rw [h1, if_pos h]

theorem int_value_of_ge {x : Nat} (h1 : 2 ^ 31 ≤ x) (h2 : x < 2 ^ 32) :
    int_value x = (x : Int) - 2 ^ 32 := by
  unfold int_value
  have h3 : x % 2 ^ 32 = x := Nat.mod_eq_of_lt h2
  rw [h3, if_neg (by omega)]

theorem int_value_two_pow_32 : int_value (2 * 2 ^ 31) = 0 := by
  decide

/-- The product `2 * step` is not 0 while `step` is between 1 and `2 ^ 30`. -/
theorem int_value_double_ne_zero {s : Nat} (h0 : 0 < s) (hs : s ≤ 2 ^ 30) :
    int_value (2 * s) ≠ 0 := by
  rcases Nat.lt_or_ge (2 * s) (2 ^ 31) with h | h
  · rw [int_value_of_lt h]
    omega
  · rw [int_value_of_ge h (by omega)]
    omega

/-- The remainder `world_rank % (2 * step)` of the program is that of the natural numbers
while `step` is between 1 and `2 ^ 30`, also when `2 * step` has wrapped to `-2 ^ 31`. -/
theorem tmod_double (r : Nat) {s : Nat} (hs : s ≤ 2 ^ 30) :
    Int.tmod (r : Int) (int_value (2 * s)) = ((r % (2 * s) : Nat) : Int) := by
  rcases Nat.lt_or_ge (2 * s) (2 ^ 31) with h | h
  · rw [int_value_of_lt h, Int.ofNat_tmod]
  · have h2 : 2 * s = 2 ^ 31 := by omega
    rw [int_value_of_ge h (by omega), h2, Int.ofNat_tmod]
    have : (((2 ^ 31 : Nat) : Int) - 2 ^ 32) = - ((2 ^ 31 : Nat) : Int) := by norm_num
    rw [this, Int.tmod_neg]

theorem tmod_double_eq_zero_iff (r : Nat) {s : Nat} (hs : s ≤ 2 ^ 30) :
    Int.tmod (r : Int) (int_value (2 * s)) = 0 ↔ r % (2 * s) = 0 := by
  rw [tmod_double r hs]
  exact Int.natCast_eq_zero

/-- The difference `world_rank - step` does not wrap for a rank that is at least `step`. -/
theorem int_value_sub {r s : Nat} (hs : s ≤ r) (hr : r < 2 ^ 31) :
    int_value (r + (2 ^ 32 - s % 2 ^ 32)) = ((r - s : Nat) : Int) := by
  unfold int_value
  have h1 : (r + (2 ^ 32 - s % 2 ^ 32)) % 2 ^ 32 = r - s := by omega
  rw [h1, if_pos (by omega)]

theorem le_int_max {P : Nat} (h : P ≤ 2 ^ 30) : P ≤ INT_MAX := by
  unfold INT_MAX
  omega

end IntLemmas

section LoopLemmas

variable {α κ : Type} [LinearOrder κ] [Inhabited α]

/-! ### The branches of one loop iteration -/

theorem loop_iteration_stable (key : α → κ) (K P : Nat) (w : Nat → Proc α) (r : Nat)
    (h : (w r).status ≠ Status.running) : loop_iteration key K P w r = w r := by
  cases hst : (w r).status
  · exact absurd hst h
  all_goals simp only [loop_iteration, hst]

theorem loop_iteration_finish (key : α → κ) (K P : Nat) (w : Nat → Proc α) (r : Nat)
    (h1 : (w r).status = Status.running) (h2 : P ≤ (w r).step) (h3 : (w r).step < 2 ^ 31) :
    loop_iteration key K P w r = { w r with status := Status.finished } := by
  unfold loop_iteration
  simp only [h1]
  rw [if_neg (by rw [int_value_of_lt h3]; omega)]

/-- The iteration in which `2 * step` is 0: the remainder kills the process. -/
theorem loop_iteration_crash (key : α → κ) (K P : Nat) (w : Nat → Proc α) (r : Nat)
    (h1 : (w r).status = Status.running) (h2 : int_value (w r).step < (P : Int))
    (h3 : int_value (2 * (w r).step) = 0) :
    loop_iteration key K P w r = { w r with status := Status.undefined } := by
  unfold loop_iteration
  simp only [h1]
  rw [if_pos h2, if_pos h3]

theorem loop_iteration_idle (key : α → κ) (K P : Nat) (w : Nat → Proc α) (r : Nat)
    (h1 : (w r).status = Status.running) (h2 : (w r).step < P)
    (h3 : (w r).step ≤ 2 ^ 30) (h4 : r % (2 * (w r).step) = 0)
    (h5 : P ≤ r + (w r).step) (h6 : r + (w r).step < 2 ^ 31) :
    loop_iteration key K P w r
      = { w r with step := 2 * (w r).step, rounds := (w r).rounds + 1 } := by
  have h0 : 0 < (w r).step := by
    rcases Nat.eq_zero_or_pos (w r).step with h | h
    · rw [h] at h4 h5 h2
      simp only [Nat.mul_zero, Nat.mod_zero] at h4
      omega
    · exact h
  have hmod : (2 * (w r).step) % 2 ^ 32 = 2 * (w r).step := Nat.mod_eq_of_lt (by omega)
  unfold loop_iteration
  simp only [h1]
  rw [if_pos (by rw [int_value_of_lt (by omega)]; omega),
    if_neg (int_value_double_ne_zero h0 h3),
    if_pos ((tmod_double_eq_zero_iff r h3).2 h4),
    if_neg (by rw [int_value_of_lt h6]; omega), hmod]

theorem loop_iteration_recv (key : α → κ) (K P : Nat) (w : Nat → Proc α) (r : Nat)
    (h1 : (w r).status = Status.running) (h2 : (w r).step < P)
    (h0 : 0 < (w r).step) (h3 : (w r).step ≤ 2 ^ 30) (h4 : r % (2 * (w r).step) = 0)
    (h5 : r + (w r).step < P) (h8 : r + (w r).step < 2 ^ 31)
    (h6 : send_target P (r + (w r).step) (w (r + (w r).step)) = some (r : Int))
    (h7 : (w (r + (w r).step)).local_data.length ≤ K) :
    loop_iteration key K P w r
      = { w r with
          local_data :=
            sort_and_prune key K ((w r).local_data ++ (w (r + (w r).step)).local_data)
          step := 2 * (w r).step
          rounds := (w r).rounds + 1 } := by
  have hmod : (2 * (w r).step) % 2 ^ 32 = 2 * (w r).step := Nat.mod_eq_of_lt (by omega)
  unfold loop_iteration
  simp only [h1]
  rw [if_pos (by rw [int_value_of_lt (by omega)]; omega),
    if_neg (int_value_double_ne_zero h0 h3),
    if_pos ((tmod_double_eq_zero_iff r h3).2 h4), int_value_of_lt h8,
    if_pos (by omega), if_pos (by omega), Int.toNat_ofNat, if_pos h6,
    merge_incoming_eq key K _ _ h7, hmod]

theorem loop_iteration_send (key : α → κ) (K P : Nat) (w : Nat → Proc α) (r : Nat)
    (h1 : (w r).status = Status.running) (h2 : (w r).step < P)
    (h0 : 0 < (w r).step) (h3 : (w r).step ≤ 2 ^ 30) (h4 : r % (2 * (w r).step) ≠ 0)
    (h5 : (w r).step ≤ r) (hr : r < P) (hr2 : r < 2 ^ 31)
    (h6 : recv_source P (r - (w r).step) (w (r - (w r).step)) = some r) :
    loop_iteration key K P w r
      = { w r with status := Status.sent, rounds := (w r).rounds + 1 } := by
  unfold loop_iteration
  simp only [h1]
  rw [if_pos (by rw [int_value_of_lt (by omega)]; omega),
    if_neg (int_value_double_ne_zero h0 h3),
    if_neg (fun hc => h4 ((tmod_double_eq_zero_iff r h3).1 hc)), int_value_sub h5 hr2,
    Int.toNat_ofNat, if_pos ⟨by omega, by omega⟩, if_pos h6]

end LoopLemmas

section TargetLemmas

variable {α : Type}

/-! ### The partner a process addresses -/

theorem send_target_eq (P r : Nat) (p : Proc α) (h1 : p.status = Status.running)
    (h2 : p.step < P) (h0 : 0 < p.step) (h3 : p.step ≤ 2 ^ 30) (h4 : r % (2 * p.step) ≠ 0)
    (h5 : p.step ≤ r) (hr : r < 2 ^ 31) :
    send_target P r p = some ((r - p.step : Nat) : Int) := by
  unfold send_target
  rw [if_pos ⟨h1, by rw [int_value_of_lt (by omega)]; omega, int_value_double_ne_zero h0 h3,
    fun hc => h4 ((tmod_double_eq_zero_iff r h3).1 hc)⟩, int_value_sub h5 hr]

theorem recv_source_eq (P r : Nat) (p : Proc α) (h1 : p.status = Status.running)
    (h2 : p.step < P) (h0 : 0 < p.step) (h3 : p.step ≤ 2 ^ 30) (h4 : r % (2 * p.step) = 0)
    (h5 : r + p.step < P) (h6 : r + p.step < 2 ^ 31) :
    recv_source P r p = some (r + p.step) := by
  unfold recv_source
  rw [int_value_of_lt h6, if_pos ⟨h1, by rw [int_value_of_lt (by omega)]; omega,
    int_value_double_ne_zero h0 h3, (tmod_double_eq_zero_iff r h3).2 h4, by omega, by omega⟩,
    Int.toNat_ofNat]

theorem send_target_of_not_running (P r : Nat) (p : Proc α)
    (h : p.status ≠ Status.running) : send_target P r p = none := by
  unfold send_target
  rw [if_neg]
  intro hc
  exact h hc.1

theorem recv_source_of_not_running (P r : Nat) (p : Proc α)
    (h : p.status ≠ Status.running) : recv_source P r p = none := by
  unfold recv_source
  rw [if_neg]
  intro hc
  exact h hc.1

theorem send_target_root (P : Nat) (p : Proc α) : send_target P 0 p = none := by
  unfold send_target
  rw [if_neg]
  intro h
  exact h.2.2.2 (Int.zero_tmod _)

theorem pow_le_of_le_thirty {i : Nat} (h : i ≤ 30) : 2 ^ i ≤ 2 ^ 30 :=
  Nat.pow_le_pow_right (by norm_num) h

/-- A process with `step = 2 ^ i` that is about to send is in a round `i ≤ 30`. -/
theorem send_target_pow (P r i : Nat) (p : Proc α) (d : Int) (hstep : p.step = 2 ^ i)
    (hi : i ≤ 31) (h : send_target P r p = some d) :
    p.status = Status.running ∧ i ≤ 30 ∧ 2 ^ i < P ∧ r % (2 * 2 ^ i) ≠ 0 ∧
    d = int_value (r + (2 ^ 32 - 2 ^ i % 2 ^ 32)) := by
  unfold send_target at h
  split at h
  · rename_i hc
    obtain ⟨hst, hlt, hne, hmod⟩ := hc
    rw [hstep] at hlt hne hmod h
    have hi30 : i ≤ 30 := by
      by_contra hcon
      have : i = 31 := by omega
      rw [this] at hne
      exact hne int_value_two_pow_32
    have hle := pow_le_of_le_thirty hi30
    rw [int_value_of_lt (by omega)] at hlt
    refine ⟨hst, hi30, by exact_mod_cast hlt,
      fun hz => hmod ((tmod_double_eq_zero_iff r hle).2 hz), (Option.some.inj h).symm⟩
  · exact absurd h (by simp)

/-- A process with `step = 2 ^ i` that is about to receive is in a round `i ≤ 30`. -/
theorem recv_source_pow (P r i : Nat) (p : Proc α) (q : Nat) (hstep : p.step = 2 ^ i)
    (hi : i ≤ 31) (h : recv_source P r p = some q) :
    p.status = Status.running ∧ i ≤ 30 ∧ 2 ^ i < P ∧ r % (2 * 2 ^ i) = 0 ∧
    int_value (r + 2 ^ i) < (P : Int) ∧ 0 ≤ int_value (r + 2 ^ i) ∧
    q = (int_value (r + 2 ^ i)).toNat := by
  unfold recv_source at h
  split at h
  · rename_i hc
    obtain ⟨hst, hlt, hne, hmod, hsrc, hsrc0⟩ := hc
    rw [hstep] at hlt hne hmod hsrc hsrc0 h
    have hi30 : i ≤ 30 := by
      by_contra hcon
      have : i = 31 := by omega
      rw [this] at hne
      exact hne int_value_two_pow_32
    have hle := pow_le_of_le_thirty hi30
    rw [int_value_of_lt (by omega)] at hlt
    refine ⟨hst, hi30, by exact_mod_cast hlt, (tmod_double_eq_zero_iff r hle).1 hmod,
      hsrc, hsrc0, (Option.some.inj h).symm⟩
  · exact absurd h (by simp)

end TargetLemmas

/-! ## The tree invariant -/

section InvariantLemmas

variable {α κ : Type} [LinearOrder κ]

theorem holds_top_sort_and_prune (key : α → κ) (K : Nat) (l : List α) :
    holds_top key K (sort_and_prune key K l) l := by
  refine ⟨keys_sort_and_prune key K l, ?_⟩
  obtain ⟨rest, hp, _, _⟩ := sort_and_prune_split key K l
  exact ((List.sublist_append_left _ rest).subperm).trans hp.subperm

theorem holds_top_merge (key : α → κ) (K : Nat) {a b A B : List α}
    (ha : holds_top key K a A) (hb : holds_top key K b B) :
    holds_top key K (sort_and_prune key K (a ++ b)) (A ++ B) := by
  refine ⟨keys_sort_and_prune_append key K a b A B ha.1 hb.1, ?_⟩
  exact (holds_top_sort_and_prune key K (a ++ b)).2.trans
    (((List.subperm_append_right b).2 ha.2).trans ((List.subperm_append_left A).2 hb.2))

theorem holds_top_length (key : α → κ) (K : Nat) {a A : List α} (h : holds_top key K a A) :
    a.length = min A.length K := by
  rw [← List.length_map a key, h.1, length_smallest_keys]

theorem holds_top_ascending (key : α → κ) (K : Nat) {a A : List α} (h : holds_top key K a A) :
    ascending key a := by
  unfold ascending
  rw [h.1]
  exact sorted_smallest_keys key K A

theorem pow_le_of_lt_int_max {i P : Nat} (hi : 2 ^ i < P) (hP : P ≤ INT_MAX) : i ≤ 30 := by
  unfold INT_MAX at hP
  by_contra hc
  have : 2 ^ 31 ≤ 2 ^ i := Nat.pow_le_pow_right (by norm_num) (by omega)
  omega

/-- For a rank that is a multiple of `2 * 2 ^ i`, the sum `world_rank + step` of round `i`
does not wrap. -/
theorem receiver_sum_lt {i r P : Nat} (hi : i ≤ 30) (hP : P ≤ INT_MAX) (hr : r < P)
    (hd : 2 * 2 ^ i ∣ r) : r + 2 ^ i < 2 ^ 31 := by
  unfold INT_MAX at hP
  obtain ⟨t, rfl⟩ := hd
  have hS : 0 < 2 ^ i := by positivity
  have hsplit : 2 ^ 31 = 2 * 2 ^ i * 2 ^ (30 - i) := by
    have : 2 ^ 31 = 2 ^ (1 + i + (30 - i)) := by
      congr 1
      omega
    rw [this, pow_add, pow_add, pow_one]
  have ht : t < 2 ^ (30 - i) := by
    apply Nat.lt_of_mul_lt_mul_left (a := 2 * 2 ^ i)
    rw [← hsplit]
    omega
  have h1 : 2 * 2 ^ i * (t + 1) ≤ 2 * 2 ^ i * 2 ^ (30 - i) := Nat.mul_le_mul_left _ ht
  rw [← hsplit, Nat.mul_add, Nat.mul_one] at h1
  omega

theorem tree_invariant_init (key : α → κ) (score : α → α) (P : Nat) (data : List α) :
    tree_invariant key score (global_top_k_count data.length) P data 0
      (initial_world key score P data) := by
  intro r hr
  refine ⟨fun _ => ⟨rfl, rfl, rfl, ?_⟩, fun h => absurd (by simp) h⟩
  show holds_top key _ (sort_and_prune key _ _) _
  rw [pow_zero, subtree_items_one score data P r hr]
  exact holds_top_sort_and_prune key _ _

variable [Inhabited α]

/-- One round preserves the tree invariant, the round with `step = 2 ^ 30` (in which
`2 * step` wraps to `-2 ^ 31`) included. -/
theorem tree_invariant_step (key : α → κ) (score : α → α) (K P : Nat)
    (data : List α) (i : Nat) (w : Nat → Proc α) (hP : P ≤ INT_MAX)
    (hi : 2 ^ i < P) (h : tree_invariant key score K P data i w) :
    tree_invariant key score K P data (i + 1) (tick key K P w) := by
  have hS : 0 < 2 ^ i := by positivity
  have hpow : 2 ^ (i + 1) = 2 * 2 ^ i := by rw [pow_succ]; ring
  have hi30 : i ≤ 30 := pow_le_of_lt_int_max hi hP
  have hle : 2 ^ i ≤ 2 ^ 30 := pow_le_of_le_thirty hi30
  have hPlt : P < 2 ^ 31 := by unfold INT_MAX at hP; omega
  intro r hr
  rw [hpow]
  constructor
  · intro hdvd
    obtain ⟨hst, hstep, hrounds, htop⟩ := (h r hr).1 (dvd_of_double_dvd hdvd)
    have hmod : r % (2 * (w r).step) = 0 := by
      rw [hstep]; exact (mod_double_eq_zero_iff _ _).2 hdvd
    have hsum : r + 2 ^ i < 2 ^ 31 := receiver_sum_lt hi30 hP hr hdvd
    by_cases hpart : r + 2 ^ i < P
    · obtain ⟨qst, qstep, _, qtop⟩ := (h (r + 2 ^ i) hpart).1 (partner_dvd hdvd)
      have hsend : send_target P (r + 2 ^ i) (w (r + 2 ^ i)) = some (r : Int) := by
        rw [send_target_eq P (r + 2 ^ i) _ qst (by rw [qstep]; exact hi)
          (by rw [qstep]; exact hS) (by rw [qstep]; exact hle)
          (by rw [qstep, Ne, mod_double_eq_zero_iff]; exact partner_not_double_dvd hS hdvd)
          (by rw [qstep]; omega) hsum, qstep, Nat.add_sub_cancel]
      have hlen : (w (r + 2 ^ i)).local_data.length ≤ K := by
        rw [holds_top_length key K qtop]; omega
      have := loop_iteration_recv key K P w r hst (by rw [hstep]; exact hi)
        (by rw [hstep]; exact hS) (by rw [hstep]; exact hle) hmod
        (by rw [hstep]; exact hpart) (by rw [hstep]; exact hsum)
        (by rw [hstep]; exact hsend) (by rw [hstep]; exact hlen)
      show (loop_iteration key K P w r).status = _ ∧ (loop_iteration key K P w r).step = _ ∧
        (loop_iteration key K P w r).rounds = _ ∧
        holds_top key K (loop_iteration key K P w r).local_data _
      rw [this, hstep]
      refine ⟨hst, rfl, by simp [hrounds], ?_⟩
      show holds_top key K (sort_and_prune key K _) _
      rw [subtree_items_double score data P r (2 ^ i) hpart]
      exact holds_top_merge key K htop qtop
    · have := loop_iteration_idle key K P w r hst (by rw [hstep]; exact hi)
        (by rw [hstep]; exact hle) hmod (by rw [hstep]; omega) (by rw [hstep]; exact hsum)
      show (loop_iteration key K P w r).status = _ ∧ (loop_iteration key K P w r).step = _ ∧
        (loop_iteration key K P w r).rounds = _ ∧
        holds_top key K (loop_iteration key K P w r).local_data _
      rw [this, hstep]
      refine ⟨hst, rfl, by simp [hrounds], ?_⟩
      show holds_top key K (w r).local_data _
      rw [subtree_items_double_idle score data P r (2 ^ i) (by omega)]
      exact htop
  · intro hndvd
    by_cases hd : 2 ^ i ∣ r
    · obtain ⟨hst, hstep, hrounds, htop⟩ := (h r hr).1 hd
      have hge : 2 ^ i ≤ r := sender_ge hd hndvd
      have hpar : 2 * 2 ^ i ∣ r - 2 ^ i := parent_double_dvd hd hndvd
      obtain ⟨pst, pstep, _, _⟩ := (h (r - 2 ^ i) (by omega)).1 (dvd_of_double_dvd hpar)
      have hrecv : recv_source P (r - 2 ^ i) (w (r - 2 ^ i)) = some r := by
        rw [recv_source_eq P (r - 2 ^ i) _ pst (by rw [pstep]; exact hi)
          (by rw [pstep]; exact hS) (by rw [pstep]; exact hle)
          (by rw [pstep, mod_double_eq_zero_iff]; exact hpar) (by rw [pstep]; omega)
          (by rw [pstep]; omega), pstep]
        congr 1
        omega
      have := loop_iteration_send key K P w r hst (by rw [hstep]; exact hi)
        (by rw [hstep]; exact hS) (by rw [hstep]; exact hle)
        (by rw [hstep, Ne, mod_double_eq_zero_iff]; exact hndvd)
        (by rw [hstep]; exact hge) hr (by omega) (by rw [hstep]; exact hrecv)
      refine ⟨i, Nat.lt_succ_self i, hd, by rw [hpow]; exact hndvd, ?_⟩
      show (loop_iteration key K P w r).status = _ ∧ (loop_iteration key K P w r).step = _ ∧
        (loop_iteration key K P w r).rounds = _ ∧
        holds_top key K (loop_iteration key K P w r).local_data _
      rw [this]
      exact ⟨rfl, hstep, by simp [hrounds], htop⟩
    · obtain ⟨v, hv, h1, h2, hst, hrest⟩ := (h r hr).2 hd
      have := loop_iteration_stable key K P w r (by rw [hst]; decide)
      refine ⟨v, by omega, h1, h2, ?_⟩
      show (loop_iteration key K P w r).status = _ ∧ (loop_iteration key K P w r).step = _ ∧
        (loop_iteration key K P w r).rounds = _ ∧
        holds_top key K (loop_iteration key K P w r).local_data _
      rw [this]
      exact ⟨hst, hrest⟩

end InvariantLemmas

/-! ## Runs -/

section RunLemmas

variable {α κ : Type} [LinearOrder κ] [Inhabited α]

theorem merge_incoming_some (key : α → κ) (K : Nat) (local_data message merged : List α)
    (h : merge_incoming key K local_data message = some merged) :
    message.length ≤ K ∧ merged = sort_and_prune key K (local_data ++ message) := by
  by_cases hlen : message.length ≤ K
  · rw [merge_incoming_eq key K _ _ hlen] at h
    exact ⟨hlen, (Option.some.inj h).symm⟩
  · exfalso
    unfold merge_incoming mpi_recv at h
    rw [if_neg hlen] at h
    simp at h

/-- An iteration either leaves `local_data` alone or replaces it by the pruned merge with
a message. -/
theorem loop_iteration_local_data (key : α → κ) (K P : Nat) (w : Nat → Proc α) (r : Nat) :
    (loop_iteration key K P w r).local_data = (w r).local_data ∨
    ∃ message, (loop_iteration key K P w r).local_data
      = sort_and_prune key K ((w r).local_data ++ message) := by
  unfold loop_iteration
  simp only
  split
  · split_ifs
    · exact Or.inl rfl
    · split
      · rename_i merged hm
        exact Or.inr ⟨_, (merge_incoming_some key K _ _ _ hm).2⟩
      · exact Or.inl rfl
    all_goals exact Or.inl rfl
  · exact Or.inl rfl

theorem after_ticks_succ (key : α → κ) (K P n : Nat) (w : Nat → Proc α) :
    after_ticks key K P (n + 1) w = tick key K P (after_ticks key K P n w) := rfl

theorem world_after_succ (key : α → κ) (score : α → α) (P : Nat) (data : List α)
    (n : Nat) :
    world_after key score P data (n + 1)
      = tick key (global_top_k_count data.length) P (world_after key score P data n) := rfl

/-- Every working set is ascending and no longer than the target size, at every tick. -/
theorem local_data_invariant (key : α → κ) (score : α → α) (P : Nat) (data : List α)
    (n r : Nat) :
    (world_after key score P data n r).local_data.length ≤ global_top_k_count data.length ∧
    ascending key (world_after key score P data n r).local_data := by
  induction n generalizing r with
  | zero =>
    show (sort_and_prune key _ _).length ≤ _ ∧ ascending key (sort_and_prune key _ _)
    refine ⟨?_, ascending_sort_and_prune key _ _⟩
    rw [length_sort_and_prune]
    omega
  | succ n ih =>
    rw [world_after_succ]
    show (loop_iteration key _ P _ r).local_data.length ≤ _ ∧
      ascending key (loop_iteration key _ P _ r).local_data
    rcases loop_iteration_local_data key (global_top_k_count data.length) P
      (world_after key score P data n) r with h | ⟨m, h⟩
    · rw [h]
      exact ih r
    · rw [h]
      refine ⟨?_, ascending_sort_and_prune key _ _⟩
      rw [length_sort_and_prune]
      omega

theorem pow_lt_of_lt_clog {P i : Nat} (h : i < Nat.clog 2 P) : 2 ^ i < P := by
  by_contra hc
  have := (Nat.le_pow_iff_clog_le (by norm_num : 1 < 2)).1 (not_lt.mp hc)
  omega

/-- The tree invariant holds at the head of every round. -/
theorem tree_invariant_world_after (key : α → κ) (score : α → α) (P : Nat) (data : List α)
    (hP : P ≤ INT_MAX) (i : Nat) (hi : i ≤ Nat.clog 2 P) :
    tree_invariant key score (global_top_k_count data.length) P data i
      (world_after key score P data i) := by
  induction i with
  | zero => exact tree_invariant_init key score P data
  | succ i ih =>
    rw [world_after_succ]
    exact tree_invariant_step key score _ P data i _ hP (pow_lt_of_lt_clog hi) (ih (by omega))

/-- A process that is no longer in the loop does not change. -/
theorem world_after_stable (key : α → κ) (score : α → α) (P : Nat) (data : List α)
    (m r : Nat) (h : (world_after key score P data m r).status ≠ Status.running) (n : Nat)
    (hn : m ≤ n) : world_after key score P data n r = world_after key score P data m r := by
  induction n with
  | zero =>
    have : m = 0 := by omega
    subst this
    rfl
  | succ n ih =>
    rcases Nat.eq_or_lt_of_le hn with hm | hm
    · rw [hm]
    · have ih' := ih (by omega)
      rw [world_after_succ]
      show loop_iteration key _ P _ r = _
      rw [loop_iteration_stable key _ P _ r (by rw [ih']; exact h), ih']

theorem clog_le_thirty {P : Nat} (hP : P ≤ 2 ^ 30) : Nat.clog 2 P ≤ 30 :=
  (Nat.le_pow_iff_clog_le (by norm_num : 1 < 2)).1 hP

theorem thirty_lt_clog {P : Nat} (hP : 2 ^ 30 < P) : 30 < Nat.clog 2 P := by
  by_contra hc
  have := (Nat.le_pow_iff_clog_le (by norm_num : 1 < 2)).2 (not_lt.mp hc)
  omega

theorem clog_of_gt {P : Nat} (h1 : 2 ^ 30 < P) (h2 : P ≤ INT_MAX) : Nat.clog 2 P = 31 := by
  unfold INT_MAX at h2
  have h3 := thirty_lt_clog h1
  have h4 : Nat.clog 2 P ≤ 31 := (Nat.le_pow_iff_clog_le (by norm_num : 1 < 2)).1 (by omega)
  omega

/-- After the last round rank 0 leaves the loop; its data is that of the last round. -/
theorem root_finished (key : α → κ) (score : α → α) (P : Nat) (data : List α)
    (hP0 : 0 < P) (hP : P ≤ 2 ^ 30) (n : Nat) (hn : Nat.clog 2 P < n) :
    world_after key score P data n 0
      = { world_after key score P data (Nat.clog 2 P) 0 with status := Status.finished } := by
  have hinv := tree_invariant_world_after key score P data (le_int_max hP) _ (le_refl _)
  have hle : P ≤ 2 ^ Nat.clog 2 P := Nat.le_pow_clog (by norm_num) P
  have hfirst : world_after key score P data (Nat.clog 2 P + 1) 0
      = { world_after key score P data (Nat.clog 2 P) 0 with status := Status.finished } := by
    obtain ⟨hst, hstep, _, _⟩ := (hinv 0 hP0).1 (dvd_zero _)
    have h30 := pow_le_of_le_thirty (clog_le_thirty hP)
    have hlt : (world_after key score P data (Nat.clog 2 P) 0).step < 2 ^ 31 := by
      rw [hstep]
      omega
    exact loop_iteration_finish key _ P _ 0 hst (le_of_le_of_eq hle hstep.symm) hlt
  rw [← hfirst]
  exact world_after_stable key score P data _ 0 (by rw [hfirst]; simp) n hn

/-- With more than `2 ^ 30` processes rank 0 completes round 31, in which `step` becomes
`-2 ^ 31`; the loop condition still holds, `2 * step` is 0 and the process dies in
`world_rank % (2 * step)`. -/
theorem root_crashed (key : α → κ) (score : α → α) (P : Nat) (data : List α)
    (hP : 2 ^ 30 < P) (hPmax : P ≤ INT_MAX) (n : Nat) (hn : 31 < n) :
    world_after key score P data n 0
      = { world_after key score P data 31 0 with status := Status.undefined } := by
  have hinv := tree_invariant_world_after key score P data hPmax 31
    (le_of_eq (clog_of_gt hP hPmax).symm)
  have hfirst : world_after key score P data (31 + 1) 0
      = { world_after key score P data 31 0 with status := Status.undefined } := by
    obtain ⟨hst, hstep, _, _⟩ := (hinv 0 (by omega)).1 (dvd_zero _)
    have hlt : int_value (world_after key score P data 31 0).step < (P : Int) := by
      rw [hstep, int_value_of_ge (le_refl _) (by norm_num)]
      omega
    have hzero : int_value (2 * (world_after key score P data 31 0).step) = 0 := by
      rw [hstep]
      exact int_value_two_pow_32
    exact loop_iteration_crash key _ P _ 0 hst hlt hzero
  rw [← hfirst]
  exact world_after_stable key score P data _ 0 (by rw [hfirst]; simp) n hn

/-- After the last round every other rank has sent, in the round given by the largest power
of two dividing it. -/
theorem sender_final (key : α → κ) (score : α → α) (P : Nat) (data : List α)
    (hP : P ≤ INT_MAX) (r : Nat) (hr0 : 0 < r) (hr : r < P) (n : Nat)
    (hn : Nat.clog 2 P ≤ n) :
    ∃ v, v < Nat.clog 2 P ∧ 2 ^ v ∣ r ∧ ¬ 2 ^ (v + 1) ∣ r ∧
      (world_after key score P data n r).status = Status.sent ∧
      (world_after key score P data n r).step = 2 ^ v ∧
      (world_after key score P data n r).rounds = v + 1 ∧
      holds_top key (global_top_k_count data.length) (world_after key score P data n r).local_data
        (subtree_items score data P r (2 ^ v)) := by
  have hinv := tree_invariant_world_after key score P data hP _ (le_refl _)
  have hle : P ≤ 2 ^ Nat.clog 2 P := Nat.le_pow_clog (by norm_num) P
  have hnd : ¬ 2 ^ Nat.clog 2 P ∣ r := fun hd => by
    have := Nat.le_of_dvd hr0 hd
    omega
  obtain ⟨v, hv, h1, h2, hst, hrest⟩ := (hinv r hr).2 hnd
  have := world_after_stable key score P data _ r (by rw [hst]; decide) n hn
  rw [this]
  exact ⟨v, hv, h1, h2, hst, hrest⟩

end RunLemmas

/-! ## The final state -/

section FinalLemmas

variable {α κ : Type} [LinearOrder κ]

theorem smallest_keys_min_length (key : α → κ) (K : Nat) (l : List α) :
    smallest_keys key (min l.length K) l = smallest_keys key K l := by
  unfold smallest_keys
  rcases Nat.le_total l.length K with h | h
  · rw [Nat.min_eq_left h, List.take_of_length_le (by simp),
      List.take_of_length_le (by simpa using h)]
  · rw [Nat.min_eq_right h]

theorem pow_dvd_of_le_of_dvd {v n r : Nat} (hn : n ≤ v) (h : 2 ^ v ∣ r) : 2 ^ n ∣ r :=
  dvd_trans (pow_dvd_pow 2 hn) h

theorem valuation_unique {v v' r : Nat} (h1 : 2 ^ v ∣ r) (h2 : ¬ 2 ^ (v + 1) ∣ r)
    (h1' : 2 ^ v' ∣ r) (h2' : ¬ 2 ^ (v' + 1) ∣ r) : v = v' := by
  rcases Nat.lt_trichotomy v v' with h | h | h
  · exact absurd (pow_dvd_of_le_of_dvd h h1') h2
  · exact h
  · exact absurd (pow_dvd_of_le_of_dvd h h1) h2'

theorem pow_lt_clog_of_dvd {v r P : Nat} (hr0 : 0 < r) (hr : r < P) (h : 2 ^ v ∣ r) :
    v < Nat.clog 2 P := by
  by_contra hc
  have h1 : P ≤ 2 ^ v := (Nat.le_pow_iff_clog_le (by norm_num : 1 < 2)).2 (not_lt.mp hc)
  have h2 := Nat.le_of_dvd hr0 h
  omega

theorem all_shards_eq (score : α → α) (data : List α) (P cnt : Nat) (h : P ≤ cnt) :
    subtree_items score data P 0 cnt
      = (List.range P).flatMap (fun r => (scatter data P r).map score) := by
  unfold subtree_items
  have e1 : min cnt (P - 0) = P := by omega
  rw [e1, List.range_eq_range']

theorem clog_lt_succ_of_le_pow {P k : Nat} (h : P ≤ 2 ^ k) : Nat.clog 2 P < k + 1 :=
  Nat.lt_succ_of_le ((Nat.le_pow_iff_clog_le (by norm_num : 1 < 2)).1 h)

theorem all_shards_of_dvd (score : α → α) (data : List α) (P : Nat)
    (hdiv : data.length % P = 0) :
    (List.range P).flatMap (fun r => (scatter data P r).map score) = data.map score := by
  rw [← all_shards_eq score data P P (le_refl P)]
  exact subtree_items_root_of_dvd score data P P (le_refl P) hdiv

variable [Inhabited α]

/-- A rank other than 0 is in the loop, with `step = 2 ^ n`, at the head of every round up
to the one in which it sends. -/
theorem sender_before (key : α → κ) (score : α → α) (P : Nat) (data : List α)
    (hP : P ≤ INT_MAX) (r v : Nat) (hr0 : 0 < r) (hr : r < P) (h1 : 2 ^ v ∣ r) (n : Nat)
    (hn : n ≤ v) :
    (world_after key score P data n r).status = Status.running ∧
    (world_after key score P data n r).step = 2 ^ n ∧
    (world_after key score P data n r).rounds = n := by
  have hv := pow_lt_clog_of_dvd hr0 hr h1
  have hinv := tree_invariant_world_after key score P data hP n (by omega)
  obtain ⟨a, b, c, _⟩ := (hinv r hr).1 (pow_dvd_of_le_of_dvd hn h1)
  exact ⟨a, b, c⟩

/-- After the round in which it sends, a rank keeps the state it had when it sent. -/
theorem sender_after (key : α → κ) (score : α → α) (P : Nat) (data : List α)
    (hP : P ≤ INT_MAX) (r v : Nat) (hr0 : 0 < r) (hr : r < P) (h1 : 2 ^ v ∣ r)
    (h2 : ¬ 2 ^ (v + 1) ∣ r) (n : Nat) (hn : v < n) :
    (world_after key score P data n r).status = Status.sent ∧
    (world_after key score P data n r).step = 2 ^ v ∧
    (world_after key score P data n r).rounds = v + 1 ∧
    holds_top key (global_top_k_count data.length) (world_after key score P data n r).local_data
      (subtree_items score data P r (2 ^ v)) := by
  rcases Nat.lt_or_ge n (Nat.clog 2 P) with hlt | hge
  · have hinv := tree_invariant_world_after key score P data hP n (by omega)
    have hnd : ¬ 2 ^ n ∣ r := fun hd => h2 (pow_dvd_of_le_of_dvd hn hd)
    obtain ⟨v', _, a, b, c, d, e, f⟩ := (hinv r hr).2 hnd
    have := valuation_unique h1 h2 a b
    subst this
    exact ⟨c, d, e, f⟩
  · obtain ⟨v', _, a, b, c, d, e, f⟩ := sender_final key score P data hP r hr0 hr n hge
    have := valuation_unique h1 h2 a b
    subst this
    exact ⟨c, d, e, f⟩

/-- Every rank other than 0 has a largest power of two dividing it. -/
theorem exists_valuation (r : Nat) (hr0 : 0 < r) : ∃ v, 2 ^ v ∣ r ∧ ¬ 2 ^ (v + 1) ∣ r := by
  by_contra hc
  push_neg at hc
  have hall : ∀ v, 2 ^ v ∣ r := by
    intro v
    induction v with
    | zero => simp
    | succ v ih => exact hc v ih
  have h1 := Nat.le_of_dvd hr0 (hall r)
  have h2 : r < 2 ^ r := Nat.lt_two_pow r
  omega

/-- What rank 0 holds once it is past the loop. -/
theorem output_final (key : α → κ) (score : α → α) (P : Nat) (data : List α)
    (hP0 : 0 < P) (hP : P ≤ 2 ^ 30) (n : Nat) (hn : Nat.clog 2 P < n) :
    ∃ out, output key score P data n = some out ∧
      holds_top key (global_top_k_count data.length) out
        ((List.range P).flatMap (fun r => (scatter data P r).map score)) := by
  have hfin := root_finished key score P data hP0 hP n hn
  have hinv := tree_invariant_world_after key score P data (le_int_max hP) _ (le_refl _)
  obtain ⟨_, _, _, htop⟩ := (hinv 0 hP0).1 (dvd_zero _)
  have hle : P ≤ 2 ^ Nat.clog 2 P := Nat.le_pow_clog (by norm_num) P
  rw [all_shards_eq score data P _ hle] at htop
  refine ⟨(world_after key score P data (Nat.clog 2 P) 0).local_data, ?_, htop⟩
  unfold output
  simp only
  rw [hfin]
  simp

/-- Rank 0 is in the loop with `step = 2 ^ n` at the head of every round and past the loop
afterwards. -/
theorem root_status (key : α → κ) (score : α → α) (P : Nat) (data : List α)
    (hP0 : 0 < P) (hP : P ≤ 2 ^ 30) (n : Nat) :
    (n ≤ Nat.clog 2 P →
      (world_after key score P data n 0).status = Status.running ∧
      (world_after key score P data n 0).step = 2 ^ n ∧
      (world_after key score P data n 0).rounds = n) ∧
    (Nat.clog 2 P < n →
      (world_after key score P data n 0).status = Status.finished ∧
      (world_after key score P data n 0).rounds = Nat.clog 2 P) := by
  constructor
  · intro hn
    have hinv := tree_invariant_world_after key score P data (le_int_max hP) n hn
    obtain ⟨a, b, c, _⟩ := (hinv 0 hP0).1 (dvd_zero _)
    exact ⟨a, b, c⟩
  · intro hn
    have hinv := tree_invariant_world_after key score P data (le_int_max hP) _ (le_refl _)
    obtain ⟨_, _, c, _⟩ := (hinv 0 hP0).1 (dvd_zero _)
    rw [root_finished key score P data hP0 hP n hn]
    exact ⟨rfl, c⟩

/-- With more than `2 ^ 30` processes rank 0 is in the loop at the head of each of its 32
iterations, with `step = 2 ^ n` as a 32-bit pattern, and dead afterwards, having completed
31 rounds. -/
theorem root_status_of_gt (key : α → κ) (score : α → α) (P : Nat) (data : List α)
    (hP : 2 ^ 30 < P) (hPmax : P ≤ INT_MAX) (n : Nat) :
    (n ≤ 31 →
      (world_after key score P data n 0).status = Status.running ∧
      (world_after key score P data n 0).step = 2 ^ n ∧
      (world_after key score P data n 0).rounds = n) ∧
    (31 < n →
      (world_after key score P data n 0).status = Status.undefined ∧
      (world_after key score P data n 0).rounds = 31) := by
  have hclog := clog_of_gt hP hPmax
  constructor
  · intro hn
    have hinv := tree_invariant_world_after key score P data hPmax n (by omega)
    obtain ⟨a, b, c, _⟩ := (hinv 0 (by omega)).1 (dvd_zero _)
    exact ⟨a, b, c⟩
  · intro hn
    have hinv := tree_invariant_world_after key score P data hPmax 31 (by omega)
    obtain ⟨_, _, c, _⟩ := (hinv 0 (by omega)).1 (dvd_zero _)
    rw [root_crashed key score P data hP hPmax n hn]
    exact ⟨rfl, c⟩

/-- With more than `2 ^ 30` processes rank 0 never gets past the loop. -/
theorem root_overflow (key : α → κ) (score : α → α) (P : Nat) (data : List α)
    (hP : 2 ^ 30 < P) (hPmax : P ≤ INT_MAX) (n : Nat) :
    (world_after key score P data n 0).status ≠ Status.finished ∧
    (world_after key score P data n 0).status ≠ Status.sent := by
  rcases Nat.lt_or_ge 31 n with h | h
  · rw [((root_status_of_gt key score P data hP hPmax n).2 h).1]
    exact ⟨by decide, by decide⟩
  · rw [((root_status_of_gt key score P data hP hPmax n).1 h).1]
    exact ⟨by decide, by decide⟩

theorem output_none_of_overflow (key : α → κ) (score : α → α) (P : Nat) (data : List α)
    (hP : 2 ^ 30 < P) (hPmax : P ≤ INT_MAX) (n : Nat) : output key score P data n = none := by
  unfold output
  simp only
  rw [if_neg]
  intro h
  rcases h with h | h
  · exact (root_overflow key score P data hP hPmax n).1 h
  · exact (root_overflow key score P data hP hPmax n).2 h

theorem program_output_none_of_overflow (key : α → κ) (score : α → α) (P : Nat)
    (data : List α) (hP : 2 ^ 30 < P) (hPmax : P ≤ INT_MAX) (n : Nat) :
    program_output key score P data n = none := by
  unfold program_output
  split
  · exact output_none_of_overflow key score P data hP hPmax n
  · rfl

/-- A shard count that fits `int` is accepted by `MPI_Scatter`. -/
theorem program_output_of_count (key : α → κ) (score : α → α) (P : Nat) (data : List α)
    (h : local_count data.length P ≤ INT_MAX) (n : Nat) :
    program_output key score P data n = output key score P data n := by
  unfold INT_MAX at h
  unfold program_output scatter_count
  rw [int_value_of_lt (by omega), if_pos (by omega)]

/-- A shard count between `2 ^ 31` and `2 ^ 32` converts to a negative `int`; the run ends
in `MPI_Scatter`. -/
theorem program_output_none_of_count (key : α → κ) (score : α → α) (P : Nat)
    (data : List α) (h1 : 2 ^ 31 ≤ local_count data.length P)
    (h2 : local_count data.length P < 2 ^ 32) (n : Nat) :
    scatter_count data.length P = (local_count data.length P : Int) - 2 ^ 32 ∧
    program_output key score P data n = none := by
  have hv : scatter_count data.length P = (local_count data.length P : Int) - 2 ^ 32 := by
    unfold scatter_count
    exact int_value_of_ge h1 h2
  refine ⟨hv, ?_⟩
  unfold program_output
  rw [hv, if_neg (by omega)]

theorem local_count_eq (N P : Nat) : local_count N P = N / P := rfl

theorem int_max_of_small {P : Nat} (h : P ≤ 1000) : P ≤ INT_MAX := by
  unfold INT_MAX
  omega

theorem five_not_pow (k : Nat) : 5 ≠ 2 ^ k := by
  match k with
  | 0 => norm_num
  | 1 => norm_num
  | 2 => norm_num
  | k + 3 =>
    have : 0 < 2 ^ k := by positivity
    rw [pow_add]
    omega

theorem three_le_of_not_pow {P : Nat} (h1 : 1 ≤ P) (h : ∀ k, P ≠ 2 ^ k) : 3 ≤ P := by
  have h0 := h 0
  have h1' := h 1
  norm_num at h0 h1'
  omega

/-- With at least 3 processes the shard count of a 32-bit item count fits `int`. -/
theorem count_fits_of_three_le {N P : Nat} (hP : 3 ≤ P) (hN : N < 2 ^ 32) :
    local_count N P ≤ INT_MAX := by
  unfold local_count INT_MAX
  have := Nat.div_le_div_left (a := N) hP (by norm_num)
  omega

end FinalLemmas

/-! ## The claims -/

section C1

variable {α κ : Type} [LinearOrder κ] [Inhabited α]

/-- C1, for at most `2 ^ 30` processes and a shard count `N / world_size` that fits `int`:
when `world_size` divides the item count, the run prints (at every tick after round
`⌈log2 world_size⌉`) what rank 0 holds past the loop, and that has length `min(N, K)`,
consists of items of the scored input, and its keys are the `min(N, K)` smallest keys of
all `N` items in ascending order, `K` being the target size the program computes from
`N`. -/
theorem C1_rank0_holds_global_top_k (key : α → κ) (score : α → α) (world_size : Nat)
    (data : List α) (hP1 : 1 ≤ world_size) (hP : world_size ≤ 2 ^ 30)
    (hdiv : data.length % world_size = 0)
    (hcount : local_count data.length world_size ≤ INT_MAX) (n : Nat)
    (hn : Nat.clog 2 world_size < n) :
    ∃ out, program_output key score world_size data n = some out ∧
      out.length = min data.length (global_top_k_count data.length) ∧
      out.map key
        = smallest_keys key (min data.length (global_top_k_count data.length))
            (data.map score) ∧
      out.Subperm (data.map score) := by
  obtain ⟨out, hout, htop⟩ := output_final key score world_size data hP1 hP n hn
  rw [all_shards_of_dvd score data world_size hdiv] at htop
  rw [program_output_of_count key score world_size data hcount n]
  refine ⟨out, hout, ?_, ?_, htop.2⟩
  · rw [holds_top_length key _ htop, List.length_map]
  · have := smallest_keys_min_length key (global_top_k_count data.length) (data.map score)
    rw [List.length_map] at this
    rw [this]
    exact htop.1

end C1

/-- Witness of C1: four items on two processes. -/
theorem C1_rank0_holds_global_top_k_witness :
    (1 ≤ 2 ∧ 2 ≤ 2 ^ 30 ∧ [5, 2, 9, 1].length % 2 = 0 ∧
      local_count [5, 2, 9, 1].length 2 ≤ INT_MAX ∧ Nat.clog 2 2 < 2) ∧
    ∃ out, program_output (fun x : Nat => x) id 2 [5, 2, 9, 1] 2 = some out ∧
      out.length = min [5, 2, 9, 1].length (global_top_k_count [5, 2, 9, 1].length) ∧
      out.map (fun x : Nat => x)
        = smallest_keys (fun x : Nat => x)
            (min [5, 2, 9, 1].length (global_top_k_count [5, 2, 9, 1].length))
            ([5, 2, 9, 1].map id) ∧
      out.Subperm ([5, 2, 9, 1].map id) :=
  ⟨⟨by decide, by norm_num, by decide, by decide, clog_lt_succ_of_le_pow (by norm_num)⟩,
    C1_rank0_holds_global_top_k (fun x : Nat => x) id 2 [5, 2, 9, 1] (by decide) (by norm_num)
      (by decide) (by decide) 2 (clog_lt_succ_of_le_pow (by norm_num))⟩

/-- Counterexamples to C1 as stated (every item count and process count).  With
`2 ^ 30 + 1` processes and one item per process, `world_size` divides the item count and
the shard count 1 fits `int`, yet nothing is ever printed: rank 0 never gets past the loop
(`step` wraps to `-2 ^ 31` and the process dies in `world_rank % (2 * step)`).  With one
process and `2 ^ 31` items, the shard count `2 ^ 31` reaches `MPI_Scatter` as the `int`
`-2 ^ 31`, and nothing is ever printed either. -/
theorem C1_counterexample_int_limits :
    ((1 ≤ 2 ^ 30 + 1 ∧ (List.replicate (2 ^ 30 + 1) (0 : Nat)).length % (2 ^ 30 + 1) = 0 ∧
        local_count (List.replicate (2 ^ 30 + 1) (0 : Nat)).length (2 ^ 30 + 1) ≤ INT_MAX) ∧
      ∀ n, program_output (fun x : Nat => x) id (2 ^ 30 + 1)
        (List.replicate (2 ^ 30 + 1) 0) n = none) ∧
    ((1 ≤ 1 ∧ 1 ≤ 2 ^ 30 ∧ (List.replicate (2 ^ 31) (0 : Nat)).length % 1 = 0 ∧
        (List.replicate (2 ^ 31) (0 : Nat)).length < 2 ^ 32) ∧
      scatter_count (List.replicate (2 ^ 31) (0 : Nat)).length 1 = -2 ^ 31 ∧
      ∀ n, program_output (fun x : Nat => x) id 1 (List.replicate (2 ^ 31) 0) n = none) := by
  have hc : local_count (List.replicate (2 ^ 31) (0 : Nat)).length 1 = 2 ^ 31 := by
    rw [local_count_eq, List.length_replicate, Nat.div_one]
  refine ⟨⟨⟨by norm_num, by rw [List.length_replicate, Nat.mod_self], ?_⟩,
    fun n => program_output_none_of_overflow _ _ _ _ (by norm_num)
      (by unfold INT_MAX; norm_num) n⟩,
    ⟨by norm_num, by norm_num, by rw [List.length_replicate, Nat.mod_one],
      by rw [List.length_replicate]; norm_num⟩, ?_, fun n => ?_⟩
  · rw [local_count_eq, List.length_replicate, Nat.div_self (by norm_num)]
    unfold INT_MAX
    norm_num
  · rw [(program_output_none_of_count (fun x : Nat => x) id 1 (List.replicate (2 ^ 31) 0)
      (by rw [hc]) (by rw [hc]; norm_num) 0).1, hc]
    norm_num
  · exact (program_output_none_of_count (fun x : Nat => x) id 1 (List.replicate (2 ^ 31) 0)
      (by rw [hc]) (by rw [hc]; norm_num) n).2

section C2

variable {α κ : Type} [LinearOrder κ]

/-- C2: for every shard and every `K`, the two-branch reduction yields `min(len, K)` items
whose key sequence is that of sorting the whole shard and truncating to `min(len, K)`. -/
theorem C2_reduction_refines_sort_then_truncate (key : α → κ) (K : Nat) (shard : List α) :
    (sort_and_prune key K shard).length = min shard.length K ∧
    (sort_and_prune key K shard).map key = (sort_then_truncate key K shard).map key := by
  refine ⟨length_sort_and_prune key K shard, ?_⟩
  rw [keys_sort_and_prune]
  unfold sort_then_truncate
  rw [List.map_take, keys_std_sort, ← smallest_keys_min_length]
  rfl

end C2

/-- C3, up to 16777298 items: the single-precision computation of the target size gives
`max(1, N div 100)`. -/
theorem C3_top_k_count_exact_up_to_16777298 (num_data : Nat) (h : num_data ≤ 16777298) :
    global_top_k_count num_data = max 1 (num_data / 100) :=
  global_top_k_count_exact num_data h

/-- Witness of C3: a thousand items. -/
theorem C3_top_k_count_exact_witness :
    1000 ≤ 16777298 ∧ global_top_k_count 1000 = max 1 (1000 / 100) :=
  ⟨by decide, C3_top_k_count_exact_up_to_16777298 1000 (by decide)⟩

/-- Counterexample to C3 as stated (every 32-bit count): for 16777299 items the conversion
to `float` rounds up to 16777300 and the program computes 167773, not
`16777299 div 100 = 167772`. -/
theorem C3_counterexample_16777299 :
    16777299 < 2 ^ 32 ∧ global_top_k_count 16777299 = 167773 ∧
    max 1 (16777299 / 100) = 167772 := by
  decide

section C4

variable {α κ : Type} [LinearOrder κ] [Inhabited α]

/-- C4, for a process count that is not a power of two and is at most `2 ^ 30` (the item
count being a 32-bit count): a rank that is in the loop at a round in which it is a
receiver candidate (`world_rank % (2 * step) = 0`) without partner
(`world_rank + step ≥ world_size`) ends the round with the same `local_data`, still in the
loop, with `step` doubled; and the run prints what rank 0 holds past the loop, the top-`K`
of the items of all shards, which are all items when `world_size` divides the item
count. -/
theorem C4_rank_without_partner_keeps_its_set (key : α → κ) (score : α → α)
    (world_size : Nat) (data : List α) (hP1 : 1 ≤ world_size)
    (hnp : ∀ k, world_size ≠ 2 ^ k) (hP : world_size ≤ 2 ^ 30)
    (hN : data.length < 2 ^ 32) :
    (∀ (K : Nat) (w : Nat → Proc α) (world_rank : Nat), world_rank < world_size →
      (w world_rank).status = Status.running → (w world_rank).step < world_size →
      world_rank % (2 * (w world_rank).step) = 0 →
      world_size ≤ world_rank + (w world_rank).step →
        (loop_iteration key K world_size w world_rank).local_data = (w world_rank).local_data ∧
        (loop_iteration key K world_size w world_rank).status = Status.running ∧
        (loop_iteration key K world_size w world_rank).step = 2 * (w world_rank).step) ∧
    (∀ n, Nat.clog 2 world_size < n →
      ∃ out, program_output key score world_size data n = some out ∧
        out.map key
          = smallest_keys key (global_top_k_count data.length)
              ((List.range world_size).flatMap
                (fun r => (scatter data world_size r).map score)) ∧
        out.Subperm
          ((List.range world_size).flatMap (fun r => (scatter data world_size r).map score))) ∧
    (data.length % world_size = 0 →
      (List.range world_size).flatMap (fun r => (scatter data world_size r).map score)
        = data.map score) := by
  refine ⟨?_, ?_, all_shards_of_dvd score data world_size⟩
  · intro K w r hr hst hlt hmod hpart
    rw [loop_iteration_idle key K world_size w r hst hlt (by omega) hmod hpart (by omega)]
    exact ⟨rfl, hst, rfl⟩
  · intro n hn
    obtain ⟨out, hout, htop⟩ := output_final key score world_size data hP1 hP n hn
    rw [program_output_of_count key score world_size data
      (count_fits_of_three_le (three_le_of_not_pow hP1 hnp) hN) n]
    exact ⟨out, hout, htop.1, htop.2⟩

end C4

/-- Witness of C4: ten items on five processes; rank 4 has no partner at `step = 1`. -/
theorem C4_rank_without_partner_witness :
    (1 ≤ 5 ∧ (∀ k, 5 ≠ 2 ^ k) ∧ 5 ≤ 2 ^ 30 ∧
      [5, 3, 8, 1, 9, 2, 7, 4, 6, 0].length < 2 ^ 32) ∧
    (∀ (K : Nat) (w : Nat → Proc Nat) (world_rank : Nat), world_rank < 5 →
      (w world_rank).status = Status.running → (w world_rank).step < 5 →
      world_rank % (2 * (w world_rank).step) = 0 →
      5 ≤ world_rank + (w world_rank).step →
        (loop_iteration (fun x : Nat => x) K 5 w world_rank).local_data
          = (w world_rank).local_data ∧
        (loop_iteration (fun x : Nat => x) K 5 w world_rank).status = Status.running ∧
        (loop_iteration (fun x : Nat => x) K 5 w world_rank).step
          = 2 * (w world_rank).step) ∧
    (∀ n, Nat.clog 2 5 < n →
      ∃ out, program_output (fun x : Nat => x) id 5 [5, 3, 8, 1, 9, 2, 7, 4, 6, 0] n
          = some out ∧
        out.map (fun x : Nat => x)
          = smallest_keys (fun x : Nat => x)
              (global_top_k_count [5, 3, 8, 1, 9, 2, 7, 4, 6, 0].length)
              ((List.range 5).flatMap
                (fun r => (scatter [5, 3, 8, 1, 9, 2, 7, 4, 6, 0] 5 r).map id)) ∧
        out.Subperm
          ((List.range 5).flatMap
            (fun r => (scatter [5, 3, 8, 1, 9, 2, 7, 4, 6, 0] 5 r).map id))) ∧
    ([5, 3, 8, 1, 9, 2, 7, 4, 6, 0].length % 5 = 0 →
      (List.range 5).flatMap (fun r => (scatter [5, 3, 8, 1, 9, 2, 7, 4, 6, 0] 5 r).map id)
        = [5, 3, 8, 1, 9, 2, 7, 4, 6, 0].map id) :=
  ⟨⟨by decide, five_not_pow, by norm_num, by norm_num⟩,
    C4_rank_without_partner_keeps_its_set (fun x : Nat => x) id 5
      [5, 3, 8, 1, 9, 2, 7, 4, 6, 0] (by decide) five_not_pow (by norm_num) (by norm_num)⟩

/-- Counterexample to C4 as stated (every process count that is not a power of two):
`2 ^ 30 + 1` is not a power of two, and with that many processes and `2 ^ 31 + 2` items
(two per process) rank 0 never gets past the loop, so nothing is ever printed. -/
theorem C4_counterexample_overflow :
    ((∀ k, 2 ^ 30 + 1 ≠ 2 ^ k) ∧
      (List.replicate (2 ^ 31 + 2) (0 : Nat)).length < 2 ^ 32 ∧
      (List.replicate (2 ^ 31 + 2) (0 : Nat)).length % (2 ^ 30 + 1) = 0) ∧
    ∀ n, program_output (fun x : Nat => x) id (2 ^ 30 + 1)
      (List.replicate (2 ^ 31 + 2) 0) n = none := by
  refine ⟨⟨?_, by rw [List.length_replicate]; norm_num,
      by rw [List.length_replicate]; norm_num⟩,
    fun n => program_output_none_of_overflow _ _ _ _ (by norm_num)
      (by unfold INT_MAX; norm_num) n⟩
  intro k
  cases k with
  | zero => norm_num
  | succ k =>
    rw [pow_succ]
    norm_num
    omega

section C5

variable {α κ : Type} [LinearOrder κ] [Inhabited α]

/-- C5: merging an ascending working set of at most `K` items with an empty message
succeeds and returns a working set of the same length with the same key sequence. -/
theorem C5_merge_with_empty_message (key : α → κ) (K : Nat) (local_data : List α)
    (hs : ascending key local_data) (hlen : local_data.length ≤ K) :
    ∃ merged, merge_incoming key K local_data [] = some merged ∧
      merged.length = local_data.length ∧ merged.map key = local_data.map key := by
  refine ⟨sort_and_prune key K (local_data ++ []), merge_incoming_eq key K _ _ (by simp),
    ?_, ?_⟩
  · rw [length_sort_and_prune, List.append_nil]
    omega
  · rw [keys_sort_and_prune, List.append_nil]
    unfold smallest_keys
    rw [List.Sorted.insertionSort_eq hs, List.take_of_length_le (by simpa using hlen)]

end C5

/-- Witness of C5: the working set `[1, 4, 4]` with `K = 3`. -/
theorem C5_merge_with_empty_message_witness :
    (ascending (fun x : Nat => x) [1, 4, 4] ∧ [1, 4, 4].length ≤ 3) ∧
    ∃ merged, merge_incoming (fun x : Nat => x) 3 [1, 4, 4] [] = some merged ∧
      merged.length = [1, 4, 4].length ∧
      merged.map (fun x : Nat => x) = [1, 4, 4].map (fun x : Nat => x) :=
  ⟨⟨by simp [ascending], by decide⟩,
    C5_merge_with_empty_message (fun x : Nat => x) 3 [1, 4, 4] (by simp [ascending])
      (by decide)⟩

section C6

variable {α κ : Type} [LinearOrder κ] [Inhabited α]

/-- C6: at every tick (tick 0 is the state after the local reduction) the working set of
every rank has at most `global_top_k_count` items, so as a message it fits the receive
buffer: `MPI_Recv` with that capacity accepts it and reports its exact length. -/
theorem C6_working_set_never_exceeds_k (key : α → κ) (score : α → α) (world_size : Nat)
    (data : List α) (n world_rank : Nat) :
    (world_after key score world_size data n world_rank).local_data.length
      ≤ global_top_k_count data.length ∧
    ∃ incoming_data,
      mpi_recv (global_top_k_count data.length)
          (List.replicate (global_top_k_count data.length) default)
          (world_after key score world_size data n world_rank).local_data
        = some (incoming_data,
            (world_after key score world_size data n world_rank).local_data.length) := by
  have h := (local_data_invariant key score world_size data n world_rank).1
  obtain ⟨inc, hinc, _⟩ := mpi_recv_take (global_top_k_count data.length)
    (List.replicate (global_top_k_count data.length) default) _ h
  exact ⟨h, inc, hinc⟩

/-- C7: at every tick (tick 0 is the state after the local reduction) the working set of
every rank is ascending by key. -/
theorem C7_working_set_always_ascending (key : α → κ) (score : α → α) (world_size : Nat)
    (data : List α) (n world_rank : Nat) :
    ascending key (world_after key score world_size data n world_rank).local_data :=
  (local_data_invariant key score world_size data n world_rank).2

end C6

section C8

variable {α κ : Type} [LinearOrder κ] [Inhabited α]

/-- C8, for at most `2 ^ 30` processes: rank 0 is never about to send, never has sent, and
is past the loop after round `⌈log2 world_size⌉`; every other rank `r` has a largest power
of two `2 ^ v` dividing it, is in the loop in the receive branch at the rounds before
round `v`, is about to send to `r - 2 ^ v` at round `v` (where `step = 2 ^ v`), and from
then on has status `sent` with `v + 1` executed rounds and is never about to send again. -/
theorem C8_every_rank_but_0_sends_once (key : α → κ) (score : α → α) (world_size : Nat)
    (data : List α) (hP1 : 1 ≤ world_size) (hP : world_size ≤ 2 ^ 30) :
    (∀ n, send_target world_size 0 (world_after key score world_size data n 0) = none ∧
      (world_after key score world_size data n 0).status ≠ Status.sent) ∧
    (∀ n, Nat.clog 2 world_size < n →
      (world_after key score world_size data n 0).status = Status.finished) ∧
    (∀ r, 0 < r → r < world_size →
      ∃ v, 2 ^ v ∣ r ∧ ¬ 2 ^ (v + 1) ∣ r ∧
        (∀ n, n < v →
          (world_after key score world_size data n r).status = Status.running ∧
          send_target world_size r (world_after key score world_size data n r) = none) ∧
        ((world_after key score world_size data v r).status = Status.running ∧
          (world_after key score world_size data v r).step = 2 ^ v ∧
          send_target world_size r (world_after key score world_size data v r)
            = some ((r : Int) - ((2 ^ v : Nat) : Int))) ∧
        (∀ n, v < n →
          (world_after key score world_size data n r).status = Status.sent ∧
          (world_after key score world_size data n r).step = 2 ^ v ∧
          (world_after key score world_size data n r).rounds = v + 1 ∧
          send_target world_size r (world_after key score world_size data n r) = none)) := by
  refine ⟨?_, ?_, ?_⟩
  · intro n
    refine ⟨send_target_root _ _, ?_⟩
    rcases Nat.lt_or_ge (Nat.clog 2 world_size) n with h | h
    · rw [((root_status key score world_size data hP1 hP n).2 h).1]
      decide
    · rw [((root_status key score world_size data hP1 hP n).1 h).1]
      decide
  · intro n hn
    exact ((root_status key score world_size data hP1 hP n).2 hn).1
  · intro r hr0 hr
    obtain ⟨v, h1, h2⟩ := exists_valuation r hr0
    have hvr : 2 ^ v ≤ r := Nat.le_of_dvd hr0 h1
    have hv30 : v < 30 := lt_of_lt_of_le (pow_lt_clog_of_dvd hr0 hr h1) (clog_le_thirty hP)
    refine ⟨v, h1, h2, ?_, ?_, ?_⟩
    · intro n hn
      obtain ⟨a, b, _⟩ :=
        sender_before key score world_size data (le_int_max hP) r v hr0 hr h1 n (by omega)
      refine ⟨a, ?_⟩
      have hdd : 2 * 2 ^ n ∣ r := by
        have : 2 ^ (n + 1) ∣ r := pow_dvd_of_le_of_dvd (by omega) h1
        rwa [pow_succ, Nat.mul_comm] at this
      unfold send_target
      rw [if_neg]
      intro hc
      apply hc.2.2.2
      rw [b, tmod_double_eq_zero_iff r (pow_le_of_le_thirty (by omega)),
        mod_double_eq_zero_iff]
      exact hdd
    · obtain ⟨a, b, _⟩ :=
        sender_before key score world_size data (le_int_max hP) r v hr0 hr h1 v (le_refl v)
      refine ⟨a, b, ?_⟩
      have hnd : ¬ 2 * 2 ^ v ∣ r := by
        intro hd
        apply h2
        rwa [pow_succ, Nat.mul_comm]
      rw [send_target_eq world_size r _ a (by rw [b]; omega) (by rw [b]; positivity)
        (by rw [b]; exact pow_le_of_le_thirty (by omega))
        (by rw [b, Ne, mod_double_eq_zero_iff]; exact hnd) (by rw [b]; exact hvr)
        (by omega), b]
      congr 1
      omega
    · intro n hn
      obtain ⟨a, b, c, _⟩ :=
        sender_after key score world_size data (le_int_max hP) r v hr0 hr h1 h2 n hn
      refine ⟨a, b, c, ?_⟩
      unfold send_target
      rw [if_neg]
      intro hc
      rw [a] at hc
      exact absurd hc.1 (by decide)

end C8

/-- Witness of C8: twelve items on six processes. -/
theorem C8_every_rank_but_0_sends_once_witness :
    (1 ≤ 6 ∧ 6 ≤ 2 ^ 30) ∧
    (∀ n, send_target 6 0
        (world_after (fun x : Nat => x) id 6 [5, 3, 8, 1, 9, 2, 7, 4, 6, 0, 11, 10] n 0) = none ∧
      (world_after (fun x : Nat => x) id 6 [5, 3, 8, 1, 9, 2, 7, 4, 6, 0, 11, 10] n 0).status
        ≠ Status.sent) ∧
    (∀ n, Nat.clog 2 6 < n →
      (world_after (fun x : Nat => x) id 6 [5, 3, 8, 1, 9, 2, 7, 4, 6, 0, 11, 10] n 0).status
        = Status.finished) ∧
    (∀ r, 0 < r → r < 6 →
      ∃ v, 2 ^ v ∣ r ∧ ¬ 2 ^ (v + 1) ∣ r ∧
        (∀ n, n < v →
          (world_after (fun x : Nat => x) id 6 [5, 3, 8, 1, 9, 2, 7, 4, 6, 0, 11, 10] n r).status
            = Status.running ∧
          send_target 6 r
            (world_after (fun x : Nat => x) id 6 [5, 3, 8, 1, 9, 2, 7, 4, 6, 0, 11, 10] n r)
            = none) ∧
        ((world_after (fun x : Nat => x) id 6 [5, 3, 8, 1, 9, 2, 7, 4, 6, 0, 11, 10] v r).status
            = Status.running ∧
          (world_after (fun x : Nat => x) id 6 [5, 3, 8, 1, 9, 2, 7, 4, 6, 0, 11, 10] v r).step
            = 2 ^ v ∧
          send_target 6 r
            (world_after (fun x : Nat => x) id 6 [5, 3, 8, 1, 9, 2, 7, 4, 6, 0, 11, 10] v r)
            = some ((r : Int) - ((2 ^ v : Nat) : Int))) ∧
        (∀ n, v < n →
          (world_after (fun x : Nat => x) id 6 [5, 3, 8, 1, 9, 2, 7, 4, 6, 0, 11, 10] n r).status
            = Status.sent ∧
          (world_after (fun x : Nat => x) id 6 [5, 3, 8, 1, 9, 2, 7, 4, 6, 0, 11, 10] n r).step
            = 2 ^ v ∧
          (world_after (fun x : Nat => x) id 6 [5, 3, 8, 1, 9, 2, 7, 4, 6, 0, 11, 10] n r).rounds
            = v + 1 ∧
          send_target 6 r
            (world_after (fun x : Nat => x) id 6 [5, 3, 8, 1, 9, 2, 7, 4, 6, 0, 11, 10] n r)
            = none)) :=
  ⟨⟨by decide, by norm_num⟩,
    C8_every_rank_but_0_sends_once (fun x : Nat => x) id 6
      [5, 3, 8, 1, 9, 2, 7, 4, 6, 0, 11, 10] (by decide) (by norm_num)⟩

/-- Counterexample to C8 as stated (every process count): with `2 ^ 30 + 1` processes rank
0 does not run the loop to its end; at no tick is it past the loop. -/
theorem C8_counterexample_overflow :
    1 ≤ 2 ^ 30 + 1 ∧
    ∀ n, (world_after (fun x : Nat => x) id (2 ^ 30 + 1) (List.replicate (2 ^ 30 + 1) 0)
      n 0).status ≠ Status.finished :=
  ⟨by norm_num, fun n => (root_overflow _ _ _ _ (by norm_num)
    (by unfold INT_MAX; norm_num) n).1⟩

section C9

variable {α κ : Type} [LinearOrder κ] [Inhabited α]

/-- C9, for at most `2 ^ 30` processes, with `R = ⌈log2 world_size⌉`: rank 0 is at the
head of the loop with `step = 2 ^ i` after `i` executed rounds for every `i ≤ R`; these
values of `step` are below `world_size` for `i < R` and `2 ^ R` is not; after that rank 0
is past the loop having executed exactly `R` rounds, and no rank is in the loop any more. -/
theorem C9_loop_terminates_after_clog_rounds (key : α → κ) (score : α → α)
    (world_size : Nat) (data : List α) (hP1 : 1 ≤ world_size) (hP : world_size ≤ 2 ^ 30) :
    (∀ i, i ≤ Nat.clog 2 world_size →
      (world_after key score world_size data i 0).status = Status.running ∧
      (world_after key score world_size data i 0).step = 2 ^ i ∧
      (world_after key score world_size data i 0).rounds = i) ∧
    (∀ i, i < Nat.clog 2 world_size → 2 ^ i < world_size) ∧
    world_size ≤ 2 ^ Nat.clog 2 world_size ∧
    (∀ n, Nat.clog 2 world_size < n →
      (world_after key score world_size data n 0).status = Status.finished ∧
      (world_after key score world_size data n 0).rounds = Nat.clog 2 world_size) ∧
    (∀ n r, Nat.clog 2 world_size < n → r < world_size →
      (world_after key score world_size data n r).status ≠ Status.running) := by
  refine ⟨fun i hi => (root_status key score world_size data hP1 hP i).1 hi,
    fun i hi => pow_lt_of_lt_clog hi, Nat.le_pow_clog (by norm_num) _,
    fun n hn => (root_status key score world_size data hP1 hP n).2 hn, ?_⟩
  intro n r hn hr
  rcases Nat.eq_zero_or_pos r with h0 | h0
  · subst h0
    rw [((root_status key score world_size data hP1 hP n).2 hn).1]
    decide
  · obtain ⟨v, _, _, _, hst, _⟩ :=
      sender_final key score world_size data (le_int_max hP) r h0 hr n (by omega)
    rw [hst]
    decide

end C9

/-- Witness of C9: one process (no round) is covered, here five processes (three
rounds). -/
theorem C9_loop_terminates_witness :
    (1 ≤ 5 ∧ 5 ≤ 2 ^ 30) ∧
    (∀ i, i ≤ Nat.clog 2 5 →
      (world_after (fun x : Nat => x) id 5 [5, 3, 8, 1, 9] i 0).status = Status.running ∧
      (world_after (fun x : Nat => x) id 5 [5, 3, 8, 1, 9] i 0).step = 2 ^ i ∧
      (world_after (fun x : Nat => x) id 5 [5, 3, 8, 1, 9] i 0).rounds = i) ∧
    (∀ i, i < Nat.clog 2 5 → 2 ^ i < 5) ∧
    5 ≤ 2 ^ Nat.clog 2 5 ∧
    (∀ n, Nat.clog 2 5 < n →
      (world_after (fun x : Nat => x) id 5 [5, 3, 8, 1, 9] n 0).status = Status.finished ∧
      (world_after (fun x : Nat => x) id 5 [5, 3, 8, 1, 9] n 0).rounds = Nat.clog 2 5) ∧
    (∀ n r, Nat.clog 2 5 < n → r < 5 →
      (world_after (fun x : Nat => x) id 5 [5, 3, 8, 1, 9] n r).status ≠ Status.running) :=
  ⟨⟨by decide, by norm_num⟩,
    C9_loop_terminates_after_clog_rounds (fun x : Nat => x) id 5 [5, 3, 8, 1, 9] (by decide)
      (by norm_num)⟩

/-- Counterexample to C9 as stated (every process count): for `2 ^ 30 + 1` processes
`⌈log2 world_size⌉` is 31, and after 31 rounds rank 0 is still in the loop: `step` has
wrapped to `-2 ^ 31`, which is below `world_size`, so a 32nd iteration starts, in which
`2 * step` is 0 and the process dies in `world_rank % (2 * step)`.  The loop is never left
normally. -/
theorem C9_counterexample_overflow :
    Nat.clog 2 (2 ^ 30 + 1) = 31 ∧
    ((world_after (fun x : Nat => x) id (2 ^ 30 + 1) [] 31 0).status = Status.running ∧
      (world_after (fun x : Nat => x) id (2 ^ 30 + 1) [] 31 0).rounds = 31 ∧
      int_value (world_after (fun x : Nat => x) id (2 ^ 30 + 1) [] 31 0).step = -2 ^ 31 ∧
      int_value (world_after (fun x : Nat => x) id (2 ^ 30 + 1) [] 31 0).step
        < ((2 ^ 30 + 1 : Nat) : Int) ∧
      int_value (2 * (world_after (fun x : Nat => x) id (2 ^ 30 + 1) [] 31 0).step) = 0) ∧
    (∀ n, 31 < n →
      (world_after (fun x : Nat => x) id (2 ^ 30 + 1) [] n 0).status = Status.undefined ∧
      (world_after (fun x : Nat => x) id (2 ^ 30 + 1) [] n 0).rounds = 31) ∧
    (∀ n, (world_after (fun x : Nat => x) id (2 ^ 30 + 1) [] n 0).status
      ≠ Status.finished) := by
  have hP : 2 ^ 30 < 2 ^ 30 + 1 := by norm_num
  have hPmax : 2 ^ 30 + 1 ≤ INT_MAX := by unfold INT_MAX; norm_num
  have h31 := (root_status_of_gt (fun x : Nat => x) id (2 ^ 30 + 1) [] hP hPmax 31).1
    (le_refl _)
  refine ⟨clog_of_gt hP hPmax, ⟨h31.1, h31.2.2, ?_, ?_, ?_⟩,
    fun n hn => (root_status_of_gt (fun x : Nat => x) id (2 ^ 30 + 1) [] hP hPmax n).2 hn,
    fun n => (root_overflow _ _ _ _ hP hPmax n).1⟩
  · rw [h31.2.1, int_value_of_ge (le_refl _) (by norm_num)]
    norm_num
  · rw [h31.2.1, int_value_of_ge (le_refl _) (by norm_num)]
    norm_num
  · rw [h31.2.1]
    exact int_value_two_pow_32

section C10

variable {α κ : Type} [LinearOrder κ] [Inhabited α]

/-- C10: for 1 to 199 items and a process count dividing the item count, the computed
target size is 1 and rank 0 ends with exactly one item, an item of the scored input whose
key is the minimum over all items. -/
theorem C10_single_best_item (key : α → κ) (score : α → α) (world_size : Nat)
    (data : List α) (hN1 : 1 ≤ data.length) (hN : data.length ≤ 199) (hP1 : 1 ≤ world_size)
    (hdiv : data.length % world_size = 0) (n : Nat) (hn : Nat.clog 2 world_size < n) :
    global_top_k_count data.length = 1 ∧
    ∃ x, output key score world_size data n = some [x] ∧ x ∈ data.map score ∧
      ∀ y ∈ data.map score, key x ≤ key y := by
  have hK : global_top_k_count data.length = 1 := by
    rw [global_top_k_count_exact _ (by omega)]
    omega
  have hPle : world_size ≤ data.length :=
    Nat.le_of_dvd (by omega) (Nat.dvd_of_mod_eq_zero hdiv)
  have hP : world_size ≤ 2 ^ 30 := by norm_num; omega
  obtain ⟨out, hout, htop⟩ := output_final key score world_size data hP1 hP n hn
  rw [all_shards_of_dvd score data world_size hdiv, hK] at htop
  have hlen := holds_top_length key 1 htop
  rw [List.length_map] at hlen
  have hlen1 : out.length = 1 := by omega
  obtain ⟨x, rfl⟩ := List.length_eq_one.mp hlen1
  refine ⟨hK, x, hout, htop.2.subset (List.mem_singleton_self x), ?_⟩
  intro y hy
  have hkeys := htop.1
  unfold smallest_keys at hkeys
  have hs : ((data.map score).map key).insertionSort (· ≤ ·) |>.Sorted (· ≤ ·) :=
    List.sorted_insertionSort _ _
  have hmem : key y ∈ ((data.map score).map key).insertionSort (· ≤ ·) :=
    (List.mem_insertionSort _).2 (List.mem_map_of_mem key hy)
  cases hl : ((data.map score).map key).insertionSort (· ≤ ·) with
  | nil => rw [hl] at hmem; simp at hmem
  | cons a t =>
    rw [hl] at hkeys hs hmem
    simp only [List.map_cons, List.map_nil, List.take_succ_cons, List.take_zero,
      List.cons.injEq, and_true] at hkeys
    rw [hkeys]
    rcases List.mem_cons.mp hmem with h | h
    · exact le_of_eq h.symm
    · exact List.rel_of_sorted_cons hs _ h

end C10

/-- Witness of C10: six items on three processes. -/
theorem C10_single_best_item_witness :
    (1 ≤ [4, 2, 7, 1, 8, 3].length ∧ [4, 2, 7, 1, 8, 3].length ≤ 199 ∧ 1 ≤ 3 ∧
      [4, 2, 7, 1, 8, 3].length % 3 = 0 ∧ Nat.clog 2 3 < 3) ∧
    global_top_k_count [4, 2, 7, 1, 8, 3].length = 1 ∧
    ∃ x, output (fun x : Nat => x) id 3 [4, 2, 7, 1, 8, 3] 3 = some [x] ∧
      x ∈ [4, 2, 7, 1, 8, 3].map id ∧
      ∀ y ∈ [4, 2, 7, 1, 8, 3].map id, x ≤ y :=
  ⟨⟨by decide, by decide, by decide, by decide, clog_lt_succ_of_le_pow (by norm_num)⟩,
    C10_single_best_item (fun x : Nat => x) id 3 [4, 2, 7, 1, 8, 3] (by decide) (by decide)
      (by decide) (by decide) 3 (clog_lt_succ_of_le_pow (by norm_num))⟩

/-! ## Runs with any number of processes -/

section GeneralRuns

variable {α κ : Type} [LinearOrder κ] [Inhabited α]

theorem clog_le_of_le_int_max {P : Nat} (hP : P ≤ INT_MAX) : Nat.clog 2 P ≤ 31 := by
  unfold INT_MAX at hP
  exact (Nat.le_pow_iff_clog_le (by norm_num : 1 < 2)).1 (by omega)

/-- After round `⌈log2 world_size⌉` no process is in the loop: rank 0 has left it (at most
`2 ^ 30` processes) or died in it, every other rank has sent. -/
theorem quiescent (key : α → κ) (score : α → α) (P : Nat) (data : List α)
    (hP : P ≤ INT_MAX) (n r : Nat) (hn : Nat.clog 2 P < n) (hr : r < P) :
    (r = 0 → (world_after key score P data n r).status = Status.finished ∨
      (world_after key score P data n r).status = Status.undefined) ∧
    (0 < r → (world_after key score P data n r).status = Status.sent) := by
  constructor
  · intro h0
    subst h0
    rcases Nat.lt_or_ge (2 ^ 30) P with h | h
    · right
      rw [clog_of_gt h hP] at hn
      exact ((root_status_of_gt key score P data h hP n).2 hn).1
    · left
      exact ((root_status key score P data hr h n).2 hn).1
  · intro h0
    obtain ⟨v, _, _, _, hst, _⟩ := sender_final key score P data hP r h0 hr n (by omega)
    exact hst

theorem quiescent_not_running (key : α → κ) (score : α → α) (P : Nat) (data : List α)
    (hP : P ≤ INT_MAX) (n r : Nat) (hn : Nat.clog 2 P < n) (hr : r < P) :
    (world_after key score P data n r).status ≠ Status.running := by
  rcases Nat.eq_zero_or_pos r with h0 | h0
  · rcases (quiescent key score P data hP n r hn hr).1 h0 with h | h
    · rw [h]
      decide
    · rw [h]
      decide
  · rw [(quiescent key score P data hP n r hn hr).2 h0]
    decide

end GeneralRuns

/-! ## Matching of sends and receives, message counts -/

section Counting

theorem length_filter_ne_zero (P : Nat) :
    ((List.range P).filter (fun r => decide (r ≠ 0))).length = P - 1 := by
  cases P with
  | zero => rfl
  | succ n =>
    rw [List.range_succ_eq_map, List.filter_cons_of_neg (by simp)]
    rw [List.filter_eq_self.2 (by
      intro a ha
      obtain ⟨b, _, rfl⟩ := List.mem_map.mp ha
      simp)]
    simp

theorem sum_map_length_le {β : Type} (L : List (List β)) (K : Nat)
    (h : ∀ m ∈ L, m.length ≤ K) : (L.map List.length).sum ≤ L.length * K := by
  induction L with
  | nil => simp
  | cons m L ih =>
    have h1 := h m (List.mem_cons_self m L)
    have h2 := ih (fun x hx => h x (List.mem_cons_of_mem m hx))
    rw [List.map_cons, List.sum_cons, List.length_cons, Nat.succ_mul]
    omega

end Counting

section Matching

variable {α κ : Type} [LinearOrder κ]

/-- At the head of round `i`, a rank that is about to send is matched by its parent in the
tree, which is about to receive from it. -/
theorem send_matched (key : α → κ) (score : α → α) (K P : Nat) (data : List α) (i : Nat)
    (w : Nat → Proc α) (h : tree_invariant key score K P data i w) (hi : i ≤ 31)
    (hP : P ≤ INT_MAX) (r : Nat) (hr : r < P)
    (d : Int) (hs : send_target P r (w r) = some d) :
    (w r).status = Status.running ∧ (w r).step = 2 ^ i ∧ 2 ^ i < P ∧ i ≤ 30 ∧
    2 ^ i ≤ r ∧ ¬ 2 * 2 ^ i ∣ r ∧ d = ((r - 2 ^ i : Nat) : Int) ∧
    (w (r - 2 ^ i)).status = Status.running ∧ (w (r - 2 ^ i)).step = 2 ^ i ∧
    (r - 2 ^ i) % (2 * 2 ^ i) = 0 ∧
    recv_source P (r - 2 ^ i) (w (r - 2 ^ i)) = some r := by
  have hPlt : P < 2 ^ 31 := by unfold INT_MAX at hP; omega
  have hS : 0 < 2 ^ i := by positivity
  have hd : 2 ^ i ∣ r := by
    by_contra hnd
    obtain ⟨v, _, _, _, hsent, _⟩ := (h r hr).2 hnd
    rw [send_target_of_not_running P r _ (by rw [hsent]; decide)] at hs
    exact absurd hs (by simp)
  obtain ⟨hst, hstep, _, _⟩ := (h r hr).1 hd
  obtain ⟨_, hi30, hlt, hmod, hdv⟩ := send_target_pow P r i (w r) d hstep hi hs
  have hle := pow_le_of_le_thirty hi30
  have hndd : ¬ 2 * 2 ^ i ∣ r := fun hdd => hmod ((mod_double_eq_zero_iff _ _).2 hdd)
  have hge : 2 ^ i ≤ r := sender_ge hd hndd
  have hpar : 2 * 2 ^ i ∣ r - 2 ^ i := parent_double_dvd hd hndd
  obtain ⟨pst, pstep, _, _⟩ := (h (r - 2 ^ i) (by omega)).1 (dvd_of_double_dvd hpar)
  have hpm : (r - 2 ^ i) % (2 * 2 ^ i) = 0 := (mod_double_eq_zero_iff _ _).2 hpar
  refine ⟨hst, hstep, hlt, hi30, hge, hndd, ?_, pst, pstep, hpm, ?_⟩
  · rw [hdv, int_value_sub hge (by omega)]
  · rw [recv_source_eq P (r - 2 ^ i) _ pst (by rw [pstep]; exact hlt)
      (by rw [pstep]; exact hS) (by rw [pstep]; exact hle) (by rw [pstep]; exact hpm)
      (by rw [pstep]; omega) (by rw [pstep]; omega), pstep]
    congr 1
    omega

/-- At the head of round `i`, a rank that is about to receive is matched by its partner,
which is about to send to it. -/
theorem recv_matched (key : α → κ) (score : α → α) (K P : Nat) (data : List α) (i : Nat)
    (w : Nat → Proc α) (h : tree_invariant key score K P data i w) (hi : i ≤ 31)
    (hP : P ≤ INT_MAX) (r : Nat) (hr : r < P)
    (q : Nat) (hs : recv_source P r (w r) = some q) :
    (w r).status = Status.running ∧ (w r).step = 2 ^ i ∧ 2 ^ i < P ∧ i ≤ 30 ∧
    r % (2 * 2 ^ i) = 0 ∧ q = r + 2 ^ i ∧ q < P ∧ q < 2 ^ 31 ∧
    (w q).status = Status.running ∧ (w q).step = 2 ^ i ∧ (w q).local_data.length ≤ K ∧
    send_target P q (w q) = some (r : Int) := by
  have hS : 0 < 2 ^ i := by positivity
  have hd : 2 ^ i ∣ r := by
    by_contra hnd
    obtain ⟨v, _, _, _, hsent, _⟩ := (h r hr).2 hnd
    rw [recv_source_of_not_running P r _ (by rw [hsent]; decide)] at hs
    exact absurd hs (by simp)
  obtain ⟨hst, hstep, _, _⟩ := (h r hr).1 hd
  obtain ⟨_, hi30, hlt, hmod, hsrc, _, hq⟩ := recv_source_pow P r i (w r) q hstep hi hs
  have hle := pow_le_of_le_thirty hi30
  have hdd : 2 * 2 ^ i ∣ r := (mod_double_eq_zero_iff _ _).1 hmod
  have hsum : r + 2 ^ i < 2 ^ 31 := receiver_sum_lt hi30 hP hr hdd
  rw [int_value_of_lt hsum] at hsrc hq
  rw [Int.toNat_ofNat] at hq
  have hpart : r + 2 ^ i < P := by exact_mod_cast hsrc
  subst hq
  obtain ⟨qst, qstep, _, qtop⟩ := (h (r + 2 ^ i) hpart).1 (partner_dvd hdd)
  refine ⟨hst, hstep, hlt, hi30, hmod, rfl, hpart, hsum, qst, qstep, ?_, ?_⟩
  · rw [holds_top_length key K qtop]
    omega
  · rw [send_target_eq P (r + 2 ^ i) _ qst (by rw [qstep]; exact hlt)
      (by rw [qstep]; exact hS) (by rw [qstep]; exact hle)
      (by rw [qstep, Ne, mod_double_eq_zero_iff]; exact partner_not_double_dvd hS hdd)
      (by rw [qstep]; omega) hsum, qstep, Nat.add_sub_cancel]

/-- A rank that is a multiple of `2 * 2 ^ i` with a partner below `world_size` posts the
receive of round `i`. -/
theorem recv_at_round (key : α → κ) (score : α → α) (K P : Nat) (data : List α) (i : Nat)
    (w : Nat → Proc α) (h : tree_invariant key score K P data i w)
    (hi : i ≤ 30) (hP : P ≤ INT_MAX) (r : Nat) (hd : 2 * 2 ^ i ∣ r)
    (hpart : r + 2 ^ i < P) :
    recv_source P r (w r) = some (r + 2 ^ i) := by
  have hPlt : P < 2 ^ 31 := by unfold INT_MAX at hP; omega
  have hS : 0 < 2 ^ i := by positivity
  obtain ⟨hst, hstep, _, _⟩ := (h r (by omega)).1 (dvd_of_double_dvd hd)
  rw [recv_source_eq P r _ hst (by rw [hstep]; omega) (by rw [hstep]; positivity)
    (by rw [hstep]; exact pow_le_of_le_thirty hi)
    (by rw [hstep]; exact (mod_double_eq_zero_iff _ _).2 hd) (by rw [hstep]; exact hpart)
    (by rw [hstep]; omega), hstep]

/-- A rank that is an odd multiple of `2 ^ i` executes the send of round `i`. -/
theorem send_at_round (key : α → κ) (score : α → α) (K P : Nat) (data : List α) (i : Nat)
    (w : Nat → Proc α) (h : tree_invariant key score K P data i w)
    (hi : i ≤ 30) (hP : P ≤ INT_MAX) (r : Nat) (hr : r < P) (hd : 2 ^ i ∣ r)
    (hnd : ¬ 2 * 2 ^ i ∣ r) :
    send_target P r (w r) = some ((r : Int) - ((2 ^ i : Nat) : Int)) := by
  have hPlt : P < 2 ^ 31 := by unfold INT_MAX at hP; omega
  obtain ⟨hst, hstep, _, _⟩ := (h r hr).1 hd
  have hge : 2 ^ i ≤ r := sender_ge hd hnd
  rw [send_target_eq P r _ hst (by rw [hstep]; omega) (by rw [hstep]; positivity)
    (by rw [hstep]; exact pow_le_of_le_thirty hi)
    (by rw [hstep, Ne, mod_double_eq_zero_iff]; exact hnd) (by rw [hstep]; exact hge)
    (by omega), hstep]
  congr 1
  omega

variable [Inhabited α]

/-- At every tick either the tree invariant of that round holds (up to round
`⌈log2 world_size⌉ ≤ 31`), or no process is in the loop any more. -/
theorem invariant_or_quiescent (key : α → κ) (score : α → α) (P : Nat) (data : List α)
    (hP : P ≤ INT_MAX) (n : Nat) :
    (n ≤ 31 ∧ tree_invariant key score (global_top_k_count data.length) P data n
      (world_after key score P data n)) ∨
    ∀ r, r < P → (world_after key score P data n r).status ≠ Status.running := by
  rcases Nat.lt_or_ge (Nat.clog 2 P) n with hn | hn
  · exact Or.inr (fun r hr => quiescent_not_running key score P data hP n r hn hr)
  · exact Or.inl ⟨le_trans hn (clog_le_of_le_int_max hP),
      tree_invariant_world_after key score P data hP n hn⟩

end Matching

section Single

variable {α κ : Type} [LinearOrder κ]

/-- A top-1 selection of a non-empty list is one item of minimum key. -/
theorem holds_top_one (key : α → κ) {out items : List α} (h : holds_top key 1 out items)
    (hne : 1 ≤ items.length) :
    ∃ x, out = [x] ∧ x ∈ items ∧ ∀ y ∈ items, key x ≤ key y := by
  have hlen := holds_top_length key 1 h
  have hlen1 : out.length = 1 := by omega
  obtain ⟨x, rfl⟩ := List.length_eq_one.mp hlen1
  refine ⟨x, rfl, h.2.subset (List.mem_singleton_self x), ?_⟩
  intro y hy
  have hkeys := h.1
  unfold smallest_keys at hkeys
  have hs : ((items.map key).insertionSort (· ≤ ·)).Sorted (· ≤ ·) :=
    List.sorted_insertionSort _ _
  have hmem : key y ∈ (items.map key).insertionSort (· ≤ ·) :=
    (List.mem_insertionSort _).2 (List.mem_map_of_mem key hy)
  cases hl : (items.map key).insertionSort (· ≤ ·) with
  | nil => rw [hl] at hmem; simp at hmem
  | cons a t =>
    rw [hl] at hkeys hs hmem
    simp only [List.map_cons, List.map_nil, List.take_succ_cons, List.take_zero,
      List.cons.injEq, and_true] at hkeys
    rw [hkeys]
    rcases List.mem_cons.mp hmem with h' | h'
    · exact le_of_eq h'.symm
    · exact List.rel_of_sorted_cons hs _ h'

theorem length_scatter (data : List α) (P r : Nat) (hr : r < P) :
    (scatter data P r).length = data.length / P := by
  unfold scatter local_count
  rw [List.length_take, List.length_drop]
  have h1 : (r + 1) * (data.length / P) ≤ P * (data.length / P) :=
    Nat.mul_le_mul_right _ hr
  have h2 : P * (data.length / P) ≤ data.length := Nat.mul_div_le _ _
  rw [Nat.succ_mul] at h1
  omega

end Single

/-! ## The claims, continued -/

section C11

variable {α κ : Type} [LinearOrder κ] [Inhabited α]

/-- C11, for at most `2 ^ 30` processes: when `world_size` does not divide the item count
`N`, every shard has `N / world_size` items, the shards together are the first
`world_size * (N / world_size)` items, the `N % world_size > 0` items after them are in no
shard, and rank 0 still leaves the loop, holding the
`min(K, world_size * (N / world_size))` smallest-key items of those first items only, with
`K` computed from the full `N`. -/
theorem C11_remainder_is_dropped (key : α → κ) (score : α → α) (world_size : Nat)
    (data : List α) (hP1 : 1 ≤ world_size) (hP : world_size ≤ 2 ^ 30)
    (hnd : data.length % world_size ≠ 0) :
    (∀ r, r < world_size → (scatter data world_size r).length = data.length / world_size) ∧
    (List.range world_size).flatMap (fun r => scatter data world_size r)
      = data.take (world_size * (data.length / world_size)) ∧
    (data.drop (world_size * (data.length / world_size))).length
      = data.length % world_size ∧
    0 < data.length % world_size ∧
    (∀ n, Nat.clog 2 world_size < n →
      ∃ out, output key score world_size data n = some out ∧
        out.length
          = min (global_top_k_count data.length) (world_size * (data.length / world_size)) ∧
        out.map key
          = smallest_keys key
              (min (global_top_k_count data.length)
                (world_size * (data.length / world_size)))
              ((data.take (world_size * (data.length / world_size))).map score) ∧
        out.Subperm ((data.take (world_size * (data.length / world_size))).map score)) := by
  have hle : world_size * (data.length / world_size) ≤ data.length := Nat.mul_div_le _ _
  have hlen : ((data.take (world_size * (data.length / world_size))).map score).length
      = world_size * (data.length / world_size) := by
    rw [List.length_map, List.length_take]
    omega
  refine ⟨fun r hr => length_scatter data world_size r hr, ?_, ?_, Nat.pos_of_ne_zero hnd, ?_⟩
  · have h := chunks_flatMap id data (data.length / world_size) world_size
    rw [List.map_id, ← List.range_eq_range'] at h
    rw [← h]
    congr 1
    funext r
    unfold scatter local_count
    rw [List.map_id]
  · rw [List.length_drop]
    have := Nat.div_add_mod data.length world_size
    omega
  · intro n hn
    obtain ⟨out, hout, htop⟩ := output_final key score world_size data hP1 hP n hn
    rw [← all_shards_eq score data world_size world_size (le_refl _),
      subtree_items_root score data world_size world_size (le_refl _)] at htop
    refine ⟨out, hout, ?_, ?_, htop.2⟩
    · rw [holds_top_length key _ htop, hlen, Nat.min_comm]
    · have := smallest_keys_min_length key (global_top_k_count data.length)
        ((data.take (world_size * (data.length / world_size))).map score)
      rw [hlen, Nat.min_comm] at this
      rw [this]
      exact htop.1

end C11

/-- Witness of C11: seven items on three processes; the seventh item is dropped. -/
theorem C11_remainder_is_dropped_witness :
    (1 ≤ 3 ∧ 3 ≤ 2 ^ 30 ∧ [4, 2, 7, 1, 8, 3, 0].length % 3 ≠ 0) ∧
    (∀ r, r < 3 →
      (scatter [4, 2, 7, 1, 8, 3, 0] 3 r).length = [4, 2, 7, 1, 8, 3, 0].length / 3) ∧
    (List.range 3).flatMap (fun r => scatter [4, 2, 7, 1, 8, 3, 0] 3 r)
      = [4, 2, 7, 1, 8, 3, 0].take (3 * ([4, 2, 7, 1, 8, 3, 0].length / 3)) ∧
    ([4, 2, 7, 1, 8, 3, 0].drop (3 * ([4, 2, 7, 1, 8, 3, 0].length / 3))).length
      = [4, 2, 7, 1, 8, 3, 0].length % 3 ∧
    0 < [4, 2, 7, 1, 8, 3, 0].length % 3 ∧
    (∀ n, Nat.clog 2 3 < n →
      ∃ out, output (fun x : Nat => x) id 3 [4, 2, 7, 1, 8, 3, 0] n = some out ∧
        out.length
          = min (global_top_k_count [4, 2, 7, 1, 8, 3, 0].length)
              (3 * ([4, 2, 7, 1, 8, 3, 0].length / 3)) ∧
        out.map (fun x : Nat => x)
          = smallest_keys (fun x : Nat => x)
              (min (global_top_k_count [4, 2, 7, 1, 8, 3, 0].length)
                (3 * ([4, 2, 7, 1, 8, 3, 0].length / 3)))
              (([4, 2, 7, 1, 8, 3, 0].take (3 * ([4, 2, 7, 1, 8, 3, 0].length / 3))).map id) ∧
        out.Subperm
          (([4, 2, 7, 1, 8, 3, 0].take (3 * ([4, 2, 7, 1, 8, 3, 0].length / 3))).map id)) :=
  ⟨⟨by decide, by norm_num, by decide⟩,
    C11_remainder_is_dropped (fun x : Nat => x) id 3 [4, 2, 7, 1, 8, 3, 0] (by decide)
      (by norm_num) (by decide)⟩

/-- Counterexample to C11 as stated (every process count): one item on `2 ^ 30 + 1`
processes; `world_size` does not divide the item count, and the run does fail: rank 0
never gets past the loop: `step` wraps to `-2 ^ 31` after the round with `step = 2 ^ 30`
and the process dies in `world_rank % (2 * step)`. -/
theorem C11_counterexample_overflow :
    (1 ≤ 2 ^ 30 + 1 ∧ [(0 : Nat)].length % (2 ^ 30 + 1) ≠ 0) ∧
    ∀ n, output (fun x : Nat => x) id (2 ^ 30 + 1) [0] n = none :=
  ⟨⟨by norm_num, by norm_num⟩, fun n => output_none_of_overflow _ _ _ _ (by norm_num)
    (by unfold INT_MAX; norm_num) n⟩

section C14

variable {α κ : Type} [LinearOrder κ] [Inhabited α]

/-- C14: when the message has `m ≤ K` items, `MPI_Recv` into the buffer of `K` slots
succeeds and reports the count `m`; the buffer, still `K` slots long, cut to `m` slots is
exactly the message, so the combined set has `own length + m` items before pruning, and
every item of the merged working set (with multiplicity) is an item of the receiver's own
set or of the message. -/
theorem C14_receiver_appends_exactly_the_message (key : α → κ) (K : Nat)
    (local_data message : List α) (hm : message.length ≤ K) :
    ∃ incoming_data merged,
      mpi_recv K (List.replicate K default) message = some (incoming_data, message.length) ∧
      incoming_data.length = K ∧
      incoming_data.take message.length = message ∧
      (local_data ++ incoming_data.take message.length).length
        = local_data.length + message.length ∧
      merge_incoming key K local_data message = some merged ∧
      merged = sort_and_prune key K (local_data ++ message) ∧
      merged.Subperm (local_data ++ message) ∧
      ∀ x ∈ merged, x ∈ local_data ∨ x ∈ message := by
  refine ⟨message ++ (List.replicate K default).drop message.length,
    sort_and_prune key K (local_data ++ message), ?_, ?_, ?_, ?_,
    merge_incoming_eq key K local_data message hm, rfl,
    (holds_top_sort_and_prune key K _).2, ?_⟩
  · unfold mpi_recv
    rw [if_pos hm]
  · rw [List.length_append, List.length_drop, List.length_replicate]
    omega
  · rw [List.take_left']
    rfl
  · rw [List.take_left' rfl, List.length_append]
  · intro x hx
    exact List.mem_append.mp ((holds_top_sort_and_prune key K _).2.subset hx)

end C14

/-- Witness of C14: a message of one item received into a buffer of three slots. -/
theorem C14_receiver_appends_witness :
    [7].length ≤ 3 ∧
    ∃ incoming_data merged,
      mpi_recv 3 (List.replicate 3 default) [7] = some (incoming_data, [7].length) ∧
      incoming_data.length = 3 ∧
      incoming_data.take [7].length = [7] ∧
      ([2, 9] ++ incoming_data.take [7].length).length = [2, 9].length + [7].length ∧
      merge_incoming (fun x : Nat => x) 3 [2, 9] [7] = some merged ∧
      merged = sort_and_prune (fun x : Nat => x) 3 ([2, 9] ++ [7]) ∧
      merged.Subperm ([2, 9] ++ [7]) ∧
      ∀ x ∈ merged, x ∈ [2, 9] ∨ x ∈ [7] :=
  ⟨by decide, C14_receiver_appends_exactly_the_message (fun x : Nat => x) 3 [2, 9] [7]
    (by decide)⟩

section C17

variable {α κ : Type} [LinearOrder κ]

/-- C17: for every `K` and all item sequences `A` and `B`, pruning `A` and `B` separately
and then pruning their concatenation gives the same key sequence as pruning `A ++ B`. -/
theorem C17_prune_distributes_over_append (key : α → κ) (K : Nat) (A B : List α) :
    (sort_and_prune key K (sort_and_prune key K A ++ sort_and_prune key K B)).map key
      = (sort_and_prune key K (A ++ B)).map key := by
  rw [keys_sort_and_prune_append key K _ _ A B (keys_sort_and_prune key K A)
    (keys_sort_and_prune key K B), keys_sort_and_prune]

end C17

section C15

variable {α κ : Type} [LinearOrder κ] [Inhabited α]

/-- C15, for every process count (`world_size` is an `int`): once the merge phase is over,
exactly `world_size - 1` messages have been sent, each of at most `K ≥ 1` items, `K` being
the target size the program computes; the number of items transmitted is therefore at most
`(world_size - 1) * K`. -/
theorem C15_message_count_and_volume (key : α → κ) (score : α → α) (world_size : Nat)
    (data : List α) (hP : world_size ≤ INT_MAX) (n : Nat)
    (hn : Nat.clog 2 world_size < n) :
    1 ≤ global_top_k_count data.length ∧
    (sent_messages world_size (world_after key score world_size data n)).length
      = world_size - 1 ∧
    (∀ m ∈ sent_messages world_size (world_after key score world_size data n),
      m.length ≤ global_top_k_count data.length) ∧
    ((sent_messages world_size (world_after key score world_size data n)).map
      List.length).sum ≤ (world_size - 1) * global_top_k_count data.length := by
  have hcount : (sent_messages world_size (world_after key score world_size data n)).length
      = world_size - 1 := by
    unfold sent_messages
    rw [List.length_map, ← length_filter_ne_zero world_size]
    congr 1
    apply List.filter_congr
    intro r hr
    rw [List.mem_range] at hr
    rcases Nat.eq_zero_or_pos r with h0 | h0
    · subst h0
      rcases (quiescent key score world_size data hP n 0 hn hr).1 rfl with h | h
      · rw [h]
        decide
      · rw [h]
        decide
    · rw [(quiescent key score world_size data hP n r hn hr).2 h0]
      simp
      omega
  have hlen : ∀ m ∈ sent_messages world_size (world_after key score world_size data n),
      m.length ≤ global_top_k_count data.length := by
    intro m hm
    unfold sent_messages at hm
    obtain ⟨r, _, rfl⟩ := List.mem_map.mp hm
    exact (local_data_invariant key score world_size data n r).1
  refine ⟨global_top_k_count_pos _, hcount, hlen, ?_⟩
  rw [← hcount]
  exact sum_map_length_le _ _ hlen

end C15

/-- Witness of C15: twelve items on six processes. -/
theorem C15_message_count_and_volume_witness :
    (6 ≤ INT_MAX ∧ Nat.clog 2 6 < 4) ∧
    1 ≤ global_top_k_count [5, 3, 8, 1, 9, 2, 7, 4, 6, 0, 11, 10].length ∧
    (sent_messages 6
      (world_after (fun x : Nat => x) id 6 [5, 3, 8, 1, 9, 2, 7, 4, 6, 0, 11, 10] 4)).length
      = 6 - 1 ∧
    (∀ m ∈ sent_messages 6
        (world_after (fun x : Nat => x) id 6 [5, 3, 8, 1, 9, 2, 7, 4, 6, 0, 11, 10] 4),
      m.length ≤ global_top_k_count [5, 3, 8, 1, 9, 2, 7, 4, 6, 0, 11, 10].length) ∧
    ((sent_messages 6
      (world_after (fun x : Nat => x) id 6 [5, 3, 8, 1, 9, 2, 7, 4, 6, 0, 11, 10] 4)).map
      List.length).sum
      ≤ (6 - 1) * global_top_k_count [5, 3, 8, 1, 9, 2, 7, 4, 6, 0, 11, 10].length :=
  ⟨⟨int_max_of_small (by norm_num), clog_lt_succ_of_le_pow (by norm_num)⟩,
    C15_message_count_and_volume (fun x : Nat => x) id 6
      [5, 3, 8, 1, 9, 2, 7, 4, 6, 0, 11, 10] (int_max_of_small (by norm_num)) 4
      (clog_lt_succ_of_le_pow (by norm_num))⟩

section C16

variable {α κ : Type} [LinearOrder κ] [Inhabited α]

/-- C16: at every tick of the run, for every process count (`world_size` is an `int`),
the round with `step = 2 ^ 30` of more than `2 ^ 30` processes included: a rank `r` that
is about to send addresses a rank `q ≥ 0` with `q + step = r` that is still in the loop in
the same round, satisfies `q % (2 * step) = 0` and is waiting for `r`, and the send
completes in that tick; a rank `r` that is waiting for `q` has `q = r + step < world_size`,
and `q` is still in the loop in the same round and is about to send to `r`, and the receive
completes in that tick with the merge of the two working sets. -/
theorem C16_sends_and_receives_match (key : α → κ) (score : α → α) (world_size : Nat)
    (data : List α) (n r : Nat) (hP : world_size ≤ INT_MAX) (hr : r < world_size) :
    (∀ d, send_target world_size r (world_after key score world_size data n r) = some d →
      ∃ q : Nat, d = (q : Int) ∧
        q + (world_after key score world_size data n r).step = r ∧
        (world_after key score world_size data n q).status = Status.running ∧
        (world_after key score world_size data n q).step
          = (world_after key score world_size data n r).step ∧
        q % (2 * (world_after key score world_size data n r).step) = 0 ∧
        recv_source world_size q (world_after key score world_size data n q) = some r ∧
        (world_after key score world_size data (n + 1) r).status = Status.sent) ∧
    (∀ q, recv_source world_size r (world_after key score world_size data n r) = some q →
      q = r + (world_after key score world_size data n r).step ∧ q < world_size ∧
        (world_after key score world_size data n q).status = Status.running ∧
        (world_after key score world_size data n q).step
          = (world_after key score world_size data n r).step ∧
        send_target world_size q (world_after key score world_size data n q)
          = some (r : Int) ∧
        (world_after key score world_size data (n + 1) r).status = Status.running ∧
        (world_after key score world_size data (n + 1) r).local_data
          = sort_and_prune key (global_top_k_count data.length)
              ((world_after key score world_size data n r).local_data ++
                (world_after key score world_size data n q).local_data)) := by
  have hPlt : world_size < 2 ^ 31 := by unfold INT_MAX at hP; omega
  rcases invariant_or_quiescent key score world_size data hP n with ⟨hn, hinv⟩ | hq
  · constructor
    · intro d hd
      obtain ⟨hst, hstep, hlt, hi30, hge, hndd, hdq, pst, pstep, hpm, hrecv⟩ :=
        send_matched key score _ world_size data n _ hinv hn hP r hr d hd
      have hS : 0 < 2 ^ n := by positivity
      refine ⟨r - 2 ^ n, hdq, by rw [hstep]; omega, pst, by rw [pstep, hstep],
        by rw [hstep]; exact hpm, hrecv, ?_⟩
      rw [world_after_succ]
      show (loop_iteration key _ world_size _ r).status = _
      rw [loop_iteration_send key _ world_size _ r hst (by rw [hstep]; exact hlt)
        (by rw [hstep]; exact hS) (by rw [hstep]; exact pow_le_of_le_thirty hi30)
        (by rw [hstep, Ne, mod_double_eq_zero_iff]; exact hndd)
        (by rw [hstep]; exact hge) hr (by omega) (by rw [hstep]; exact hrecv)]
    · intro q hq
      obtain ⟨hst, hstep, hlt, hi30, hmod, hqe, hqP, hq31, qst, qstep, qlen, hsend⟩ :=
        recv_matched key score _ world_size data n _ hinv hn hP r hr q hq
      subst hqe
      have hS : 0 < 2 ^ n := by positivity
      have hnext := loop_iteration_recv key (global_top_k_count data.length) world_size
        (world_after key score world_size data n) r hst (by rw [hstep]; exact hlt)
        (by rw [hstep]; exact hS) (by rw [hstep]; exact pow_le_of_le_thirty hi30)
        (by rw [hstep]; exact hmod) (by rw [hstep]; exact hqP) (by rw [hstep]; exact hq31)
        (by rw [hstep]; exact hsend) (by rw [hstep]; exact qlen)
      refine ⟨by rw [hstep], hqP, qst, by rw [qstep, hstep], hsend, ?_, ?_⟩
      · rw [world_after_succ]
        show (loop_iteration key _ world_size _ r).status = _
        rw [hnext]
        exact hst
      · rw [world_after_succ]
        show (loop_iteration key _ world_size _ r).local_data = _
        rw [hnext, hstep]
  · constructor
    · intro d hd
      rw [send_target_of_not_running world_size r _ (hq r hr)] at hd
      exact absurd hd (by simp)
    · intro q hq'
      rw [recv_source_of_not_running world_size r _ (hq r hr)] at hq'
      exact absurd hq' (by simp)

end C16

/-- Witness of C16: six processes at tick 1 (`step = 2`), where rank 2 is about to send to
rank 0 and rank 0 is waiting for rank 2; both calls complete in that tick. -/
theorem C16_sends_and_receives_match_witness :
    ((6 ≤ INT_MAX ∧ 2 < 6 ∧
        send_target 6 2
          (world_after (fun x : Nat => x) id 6 [5, 3, 8, 1, 9, 2, 7, 4, 6, 0, 11, 10] 1 2)
          = some 0) ∧
      ∃ q : Nat, (0 : Int) = (q : Int) ∧
        q + (world_after (fun x : Nat => x) id 6 [5, 3, 8, 1, 9, 2, 7, 4, 6, 0, 11, 10]
          1 2).step = 2 ∧
        (world_after (fun x : Nat => x) id 6 [5, 3, 8, 1, 9, 2, 7, 4, 6, 0, 11, 10]
          1 q).status = Status.running ∧
        (world_after (fun x : Nat => x) id 6 [5, 3, 8, 1, 9, 2, 7, 4, 6, 0, 11, 10]
          1 q).step
          = (world_after (fun x : Nat => x) id 6 [5, 3, 8, 1, 9, 2, 7, 4, 6, 0, 11, 10]
            1 2).step ∧
        q % (2 * (world_after (fun x : Nat => x) id 6
          [5, 3, 8, 1, 9, 2, 7, 4, 6, 0, 11, 10] 1 2).step) = 0 ∧
        recv_source 6 q
          (world_after (fun x : Nat => x) id 6 [5, 3, 8, 1, 9, 2, 7, 4, 6, 0, 11, 10] 1 q)
          = some 2 ∧
        (world_after (fun x : Nat => x) id 6 [5, 3, 8, 1, 9, 2, 7, 4, 6, 0, 11, 10]
          (1 + 1) 2).status = Status.sent) ∧
    ((6 ≤ INT_MAX ∧ 0 < 6 ∧
        recv_source 6 0
          (world_after (fun x : Nat => x) id 6 [5, 3, 8, 1, 9, 2, 7, 4, 6, 0, 11, 10] 1 0)
          = some 2) ∧
      2 = 0 + (world_after (fun x : Nat => x) id 6 [5, 3, 8, 1, 9, 2, 7, 4, 6, 0, 11, 10]
          1 0).step ∧ 2 < 6 ∧
        (world_after (fun x : Nat => x) id 6 [5, 3, 8, 1, 9, 2, 7, 4, 6, 0, 11, 10]
          1 2).status = Status.running ∧
        (world_after (fun x : Nat => x) id 6 [5, 3, 8, 1, 9, 2, 7, 4, 6, 0, 11, 10]
          1 2).step
          = (world_after (fun x : Nat => x) id 6 [5, 3, 8, 1, 9, 2, 7, 4, 6, 0, 11, 10]
            1 0).step ∧
        send_target 6 2
          (world_after (fun x : Nat => x) id 6 [5, 3, 8, 1, 9, 2, 7, 4, 6, 0, 11, 10] 1 2)
          = some ((0 : Nat) : Int) ∧
        (world_after (fun x : Nat => x) id 6 [5, 3, 8, 1, 9, 2, 7, 4, 6, 0, 11, 10]
          (1 + 1) 0).status = Status.running ∧
        (world_after (fun x : Nat => x) id 6 [5, 3, 8, 1, 9, 2, 7, 4, 6, 0, 11, 10]
          (1 + 1) 0).local_data
          = sort_and_prune (fun x : Nat => x)
              (global_top_k_count [5, 3, 8, 1, 9, 2, 7, 4, 6, 0, 11, 10].length)
              ((world_after (fun x : Nat => x) id 6 [5, 3, 8, 1, 9, 2, 7, 4, 6, 0, 11, 10]
                1 0).local_data ++
                (world_after (fun x : Nat => x) id 6
                  [5, 3, 8, 1, 9, 2, 7, 4, 6, 0, 11, 10] 1 2).local_data)) :=
  ⟨⟨⟨int_max_of_small (by norm_num), by decide, by decide⟩,
      (C16_sends_and_receives_match (fun x : Nat => x) id 6
        [5, 3, 8, 1, 9, 2, 7, 4, 6, 0, 11, 10] 1 2 (int_max_of_small (by norm_num))
        (by decide)).1 0 (by decide)⟩,
    ⟨⟨int_max_of_small (by norm_num), by decide, by decide⟩,
      (C16_sends_and_receives_match (fun x : Nat => x) id 6
        [5, 3, 8, 1, 9, 2, 7, 4, 6, 0, 11, 10] 1 0 (int_max_of_small (by norm_num))
        (by decide)).2 2 (by decide)⟩⟩

section Examples

theorem clog_two_four : Nat.clog 2 4 = 2 := by
  have h := Nat.clog_pow 2 2 (by norm_num)
  norm_num at h
  exact h

theorem clog_two_eight : Nat.clog 2 8 = 3 := by
  have h := Nat.clog_pow 2 3 (by norm_num)
  norm_num at h
  exact h

end Examples

section C12

variable {α κ : Type} [LinearOrder κ] [Inhabited α]

/-- C12: for every input of 100 items on 4 processes, every shard has 25 items, the
target size is 1, the local reduction leaves on each rank one item of minimum key of its
shard; in the round with `step = 1` ranks 0 and 2 wait for ranks 1 and 3, which send to
them; in the round with `step = 2` rank 0 waits for rank 2, which sends to it, ranks 1 and
3 having left; rank 0 then leaves the loop after exactly 2 rounds, holding one item of
minimum key among all 100. -/
theorem C12_example_100_items_4_processes (key : α → κ) (score : α → α) (data : List α)
    (hN : data.length = 100) :
    local_count data.length 4 = 25 ∧
    (∀ r, r < 4 → (scatter data 4 r).length = 25) ∧
    global_top_k_count data.length = 1 ∧
    (∀ r, r < 4 →
      ∃ x, (world_after key score 4 data 0 r).local_data = [x] ∧
        x ∈ (scatter data 4 r).map score ∧
        ∀ y ∈ (scatter data 4 r).map score, key x ≤ key y) ∧
    ((world_after key score 4 data 0 0).step = 1 ∧
      recv_source 4 0 (world_after key score 4 data 0 0) = some 1 ∧
      send_target 4 1 (world_after key score 4 data 0 1) = some 0 ∧
      recv_source 4 2 (world_after key score 4 data 0 2) = some 3 ∧
      send_target 4 3 (world_after key score 4 data 0 3) = some 2) ∧
    ((world_after key score 4 data 1 0).step = 2 ∧
      recv_source 4 0 (world_after key score 4 data 1 0) = some 2 ∧
      send_target 4 2 (world_after key score 4 data 1 2) = some 0 ∧
      (world_after key score 4 data 1 1).status = Status.sent ∧
      (world_after key score 4 data 1 3).status = Status.sent) ∧
    ((world_after key score 4 data 2 0).status = Status.running ∧
      (world_after key score 4 data 2 0).step = 4 ∧
      (world_after key score 4 data 2 0).rounds = 2) ∧
    (∀ n, 2 < n →
      (world_after key score 4 data n 0).status = Status.finished ∧
      (world_after key score 4 data n 0).rounds = 2) ∧
    (∀ n, 2 < n →
      ∃ x, output key score 4 data n = some [x] ∧ x ∈ data.map score ∧
        ∀ y ∈ data.map score, key x ≤ key y) := by
  have hP : 4 ≤ 2 ^ 30 := by norm_num
  have hK : global_top_k_count data.length = 1 := by rw [hN]; decide
  have hc : data.length / 4 = 25 := by rw [hN]
  have hPm : 4 ≤ INT_MAX := int_max_of_small (by norm_num)
  have hov0 : 0 ≤ 30 := by norm_num
  have hov1 : 1 ≤ 30 := by norm_num
  have inv0 := tree_invariant_world_after key score 4 data hPm 0 (by rw [clog_two_four]; omega)
  have inv1 := tree_invariant_world_after key score 4 data hPm 1 (by rw [clog_two_four]; omega)
  have hlen : ∀ r, r < 4 → (scatter data 4 r).length = 25 := fun r hr => by
    rw [length_scatter data 4 r hr, hc]
  refine ⟨by unfold local_count; exact hc, hlen, hK, ?_, ⟨?_, ?_, ?_, ?_, ?_⟩,
    ⟨?_, ?_, ?_, ?_, ?_⟩, ?_, ?_, ?_⟩
  · intro r hr
    have htop : holds_top key 1 (world_after key score 4 data 0 r).local_data
        ((scatter data 4 r).map score) := by
      show holds_top key 1 (sort_and_prune key (global_top_k_count data.length) _) _
      rw [hK]
      exact holds_top_sort_and_prune key 1 _
    exact holds_top_one key htop (by rw [List.length_map, hlen r hr]; norm_num)
  · rfl
  · simpa using recv_at_round key score _ 4 data 0 _ inv0 hov0 hPm 0 (dvd_zero _)
      (by norm_num)
  · simpa using send_at_round key score _ 4 data 0 _ inv0 hov0 hPm 1 (by norm_num)
      (by norm_num) (by norm_num)
  · simpa using recv_at_round key score _ 4 data 0 _ inv0 hov0 hPm 2 (by norm_num)
      (by norm_num)
  · simpa using send_at_round key score _ 4 data 0 _ inv0 hov0 hPm 3 (by norm_num)
      (by norm_num) (by norm_num)
  · simpa using ((inv1 0 (by norm_num)).1 (dvd_zero _)).2.1
  · simpa using recv_at_round key score _ 4 data 1 _ inv1 hov1 hPm 0 (dvd_zero _)
      (by norm_num)
  · simpa using send_at_round key score _ 4 data 1 _ inv1 hov1 hPm 2 (by norm_num)
      (by norm_num) (by norm_num)
  · obtain ⟨v, _, _, _, hst, _⟩ := (inv1 1 (by norm_num)).2 (by norm_num)
    exact hst
  · obtain ⟨v, _, _, _, hst, _⟩ := (inv1 3 (by norm_num)).2 (by norm_num)
    exact hst
  · have h := (root_status key score 4 data (by norm_num) hP 2).1 (by rw [clog_two_four])
    simpa using h
  · intro n hn
    have h := (root_status key score 4 data (by norm_num) hP n).2 (by rw [clog_two_four]; exact hn)
    rw [clog_two_four] at h
    exact h
  · intro n hn
    obtain ⟨out, hout, htop⟩ := output_final key score 4 data (by norm_num) hP n
      (by rw [clog_two_four]; exact hn)
    rw [all_shards_of_dvd score data 4 (by rw [hN]), hK] at htop
    obtain ⟨x, rfl, hx, hmin⟩ := holds_top_one key htop (by rw [List.length_map, hN]; norm_num)
    exact ⟨x, hout, hx, hmin⟩

end C12

section C13

variable {α κ : Type} [LinearOrder κ] [Inhabited α]

/-- C13: for every input of 1000 items on 8 processes, the target size is 10, every shard
has 125 items and is reduced locally to 10 of its items whose keys are its 10 smallest keys
in ascending order; rank 0 is in the loop with `step = 1, 2, 4` at the head of its three
rounds, then leaves the loop after exactly 3 rounds, holding 10 items of the input whose
keys are the 10 smallest keys of all 1000 items in ascending order. -/
theorem C13_example_1000_items_8_processes (key : α → κ) (score : α → α) (data : List α)
    (hN : data.length = 1000) :
    global_top_k_count data.length = 10 ∧
    (∀ r, r < 8 → (scatter data 8 r).length = 125) ∧
    (∀ r, r < 8 →
      (world_after key score 8 data 0 r).local_data.length = 10 ∧
      (world_after key score 8 data 0 r).local_data.map key
        = smallest_keys key 10 ((scatter data 8 r).map score) ∧
      (world_after key score 8 data 0 r).local_data.Subperm ((scatter data 8 r).map score)) ∧
    (∀ i, i ≤ 3 →
      (world_after key score 8 data i 0).status = Status.running ∧
      (world_after key score 8 data i 0).step = 2 ^ i ∧
      (world_after key score 8 data i 0).rounds = i) ∧
    (∀ n, 3 < n →
      (world_after key score 8 data n 0).status = Status.finished ∧
      (world_after key score 8 data n 0).rounds = 3) ∧
    (∀ n, 3 < n →
      ∃ out, output key score 8 data n = some out ∧ out.length = 10 ∧
        ascending key out ∧
        out.map key = smallest_keys key 10 (data.map score) ∧
        out.Subperm (data.map score)) := by
  have hP : 8 ≤ 2 ^ 30 := by norm_num
  have hK : global_top_k_count data.length = 10 := by rw [hN]; decide
  have hc : data.length / 8 = 125 := by rw [hN]
  have hlen : ∀ r, r < 8 → (scatter data 8 r).length = 125 := fun r hr => by
    rw [length_scatter data 8 r hr, hc]
  refine ⟨hK, hlen, ?_, ?_, ?_, ?_⟩
  · intro r hr
    have htop : holds_top key 10 (world_after key score 8 data 0 r).local_data
        ((scatter data 8 r).map score) := by
      show holds_top key 10 (sort_and_prune key (global_top_k_count data.length) _) _
      rw [hK]
      exact holds_top_sort_and_prune key 10 _
    refine ⟨?_, htop.1, htop.2⟩
    rw [holds_top_length key 10 htop, List.length_map, hlen r hr]
    rfl
  · intro i hi
    exact (root_status key score 8 data (by norm_num) hP i).1 (by rw [clog_two_eight]; exact hi)
  · intro n hn
    have h := (root_status key score 8 data (by norm_num) hP n).2
      (by rw [clog_two_eight]; exact hn)
    rw [clog_two_eight] at h
    exact h
  · intro n hn
    obtain ⟨out, hout, htop⟩ := output_final key score 8 data (by norm_num) hP n
      (by rw [clog_two_eight]; exact hn)
    rw [all_shards_of_dvd score data 8 (by rw [hN]), hK] at htop
    refine ⟨out, hout, ?_, holds_top_ascending key 10 htop, htop.1, htop.2⟩
    rw [holds_top_length key 10 htop, List.length_map, hN]
    rfl

end C13

/-- Witness of C12: the items `0, ..., 99` on four processes. -/
theorem C12_example_100_items_witness :
    (List.range 100).length = 100 ∧
    (local_count (List.range 100).length 4 = 25 ∧
    (∀ r, r < 4 → (scatter (List.range 100) 4 r).length = 25) ∧
    global_top_k_count (List.range 100).length = 1 ∧
    (∀ r, r < 4 →
      ∃ x, (world_after (fun x : Nat => x) id 4 (List.range 100) 0 r).local_data = [x] ∧
        x ∈ (scatter (List.range 100) 4 r).map id ∧
        ∀ y ∈ (scatter (List.range 100) 4 r).map id, x ≤ y) ∧
    ((world_after (fun x : Nat => x) id 4 (List.range 100) 0 0).step = 1 ∧
      recv_source 4 0 (world_after (fun x : Nat => x) id 4 (List.range 100) 0 0) = some 1 ∧
      send_target 4 1 (world_after (fun x : Nat => x) id 4 (List.range 100) 0 1) = some 0 ∧
      recv_source 4 2 (world_after (fun x : Nat => x) id 4 (List.range 100) 0 2) = some 3 ∧
      send_target 4 3 (world_after (fun x : Nat => x) id 4 (List.range 100) 0 3) = some 2) ∧
    ((world_after (fun x : Nat => x) id 4 (List.range 100) 1 0).step = 2 ∧
      recv_source 4 0 (world_after (fun x : Nat => x) id 4 (List.range 100) 1 0) = some 2 ∧
      send_target 4 2 (world_after (fun x : Nat => x) id 4 (List.range 100) 1 2) = some 0 ∧
      (world_after (fun x : Nat => x) id 4 (List.range 100) 1 1).status = Status.sent ∧
      (world_after (fun x : Nat => x) id 4 (List.range 100) 1 3).status = Status.sent) ∧
    ((world_after (fun x : Nat => x) id 4 (List.range 100) 2 0).status = Status.running ∧
      (world_after (fun x : Nat => x) id 4 (List.range 100) 2 0).step = 4 ∧
      (world_after (fun x : Nat => x) id 4 (List.range 100) 2 0).rounds = 2) ∧
    (∀ n, 2 < n →
      (world_after (fun x : Nat => x) id 4 (List.range 100) n 0).status = Status.finished ∧
      (world_after (fun x : Nat => x) id 4 (List.range 100) n 0).rounds = 2) ∧
    (∀ n, 2 < n →
      ∃ x, output (fun x : Nat => x) id 4 (List.range 100) n = some [x] ∧
        x ∈ (List.range 100).map id ∧
        ∀ y ∈ (List.range 100).map id, x ≤ y)) :=
  ⟨List.length_range 100,
    C12_example_100_items_4_processes (fun x : Nat => x) id (List.range 100)
      (List.length_range 100)⟩

/-- Witness of C13: the items `0, ..., 999` on eight processes. -/
theorem C13_example_1000_items_witness :
    (List.range 1000).length = 1000 ∧
    (global_top_k_count (List.range 1000).length = 10 ∧
    (∀ r, r < 8 → (scatter (List.range 1000) 8 r).length = 125) ∧
    (∀ r, r < 8 →
      (world_after (fun x : Nat => x) id 8 (List.range 1000) 0 r).local_data.length = 10 ∧
      (world_after (fun x : Nat => x) id 8 (List.range 1000) 0 r).local_data.map (fun x : Nat => x)
        = smallest_keys (fun x : Nat => x) 10 ((scatter (List.range 1000) 8 r).map id) ∧
      (world_after (fun x : Nat => x) id 8 (List.range 1000) 0 r).local_data.Subperm
        ((scatter (List.range 1000) 8 r).map id)) ∧
    (∀ i, i ≤ 3 →
      (world_after (fun x : Nat => x) id 8 (List.range 1000) i 0).status = Status.running ∧
      (world_after (fun x : Nat => x) id 8 (List.range 1000) i 0).step = 2 ^ i ∧
      (world_after (fun x : Nat => x) id 8 (List.range 1000) i 0).rounds = i) ∧
    (∀ n, 3 < n →
      (world_after (fun x : Nat => x) id 8 (List.range 1000) n 0).status = Status.finished ∧
      (world_after (fun x : Nat => x) id 8 (List.range 1000) n 0).rounds = 3) ∧
    (∀ n, 3 < n →
      ∃ out, output (fun x : Nat => x) id 8 (List.range 1000) n = some out ∧ out.length = 10 ∧
        ascending (fun x : Nat => x) out ∧
        out.map (fun x : Nat => x)
          = smallest_keys (fun x : Nat => x) 10 ((List.range 1000).map id) ∧
        out.Subperm ((List.range 1000).map id))) :=
  ⟨List.length_range 1000,
    C13_example_1000_items_8_processes (fun x : Nat => x) id (List.range 1000)
      (List.length_range 1000)⟩

end TopK
